import Mathlib

/-!
Verification development for the kelindar/noise library.

The Go source is shallowly embedded as follows.

Machine integers: Go uint64 values are natural numbers kept below 2 to the
power 64 by explicit reduction modulo that bound; Go int values are integers;
two-complement reinterpretations are written with Int.emod.

Floating point: Go float32 and float64 values are modelled as rational
numbers, and every Go floating-point operation is wrapped in an explicit
round-to-nearest-ties-to-even rounding step at 24 (respectively 53)
significand bits with unbounded exponent.  This is the standard idealized
model of IEEE binary floating point: it is exact for all the finite,
non-overflowing, non-subnormal computations the claims are about, and it
contains no NaN or infinity values.

Iterators: the Go iter.Seq streaming generators are modelled by the full
list of values they would yield to a consumer that never cancels.
-/

set_option maxRecDepth 100000

/-! ### 64-bit primitives (noise.go) -/

/-- The modulus of Go uint64 arithmetic. -/
def U64 : ℕ := 2 ^ 64

/-- Go bits.RotateLeft64 on a value below 2 to the 64, for a rotation
amount below 64, written with division so the two halves cannot overlap. -/
def rotl64 (x n : ℕ) : ℕ := x % 2 ^ (64 - n) * 2 ^ n + x / 2 ^ (64 - n)

/-- Embedding of the xxhash64 mix function from noise.go.  Go binary XOR
and addition share precedence and associate left to right, so the first
line parses as ((v XOR (c1 XOR c2)) + seed), wrapped to 64 bits. -/
def xxhash64 (v seed : ℕ) : ℕ :=
  let x1 := (Nat.xor (v % U64) (Nat.xor 0x1cad21f72c81017c 0xdb979083e96dd4de) + seed) % U64
  let x2 := Nat.xor x1 (Nat.xor (rotl64 x1 49) (rotl64 x1 24))
  let x3 := x2 * 0x9fb21c651e98df25 % U64
  let x4 := Nat.xor x3 (x3 / 2 ^ 35 + 4)
  let x5 := x4 * 0x9fb21c651e98df25 % U64
  Nat.xor x5 (x5 / 2 ^ 28)

/-- The 64-bit golden-ratio constant used by hashCoords. -/
def GOLDEN64 : ℕ := 0x9e3779b97f4a7c15

/-- The 32-bit golden-ratio constant used by FBM2. -/
def GOLDEN32 : ℕ := 0x9E3779B1

/-- A coordinate of one of the numeric kinds accepted by the generic noise
functions.  Floating-point coordinates are carried as their IEEE bit
patterns, which is exactly what coordToUint64 consumes. -/
inductive Coord where
  | u16 (v : ℕ)
  | u32 (v : ℕ)
  | u64 (v : ℕ)
  | i16 (v : ℤ)
  | i32 (v : ℤ)
  | i64 (v : ℤ)
  | f32bits (v : ℕ)
  | f64bits (v : ℕ)

/-- Embedding of coordToUint64 from noise.go: zero extension for unsigned
kinds, two-complement bit reinterpretation for signed kinds, and the raw
bit pattern for floating kinds. -/
def coordToUint64 : Coord → ℕ
  | .u16 v => v % 2 ^ 16
  | .u32 v => v % 2 ^ 32
  | .u64 v => v % 2 ^ 64
  | .i16 v => (v % 2 ^ 16).toNat
  | .i32 v => (v % 2 ^ 32).toNat
  | .i64 v => (v % 2 ^ 64).toNat
  | .f32bits v => v % 2 ^ 32
  | .f64bits v => v % 2 ^ 64

/-- The loop of hashCoords: state is the running hash, i the 0-based
coordinate index. -/
def hashCoordsGo (state i : ℕ) : List Coord → ℕ
  | [] => state
  | c :: rest =>
      hashCoordsGo (xxhash64 (coordToUint64 c) ((state + i * GOLDEN64) % U64)) (i + 1) rest

/-- Embedding of hashCoords from noise.go.  The Go function panics on an
empty coordinate list, which the model renders as none. -/
def hashCoords (seed : ℕ) (cs : List Coord) : Option ℕ :=
  if cs.isEmpty then none else some (hashCoordsGo (seed % 2 ^ 32) 0 cs)

/-- The specification-shaped fold for hashCoords: a left fold over the
index-enumerated coordinates, used to state the C5 claim. -/
def hashFoldSpec (seed : ℕ) (cs : List Coord) : ℕ :=
  (cs.enum).foldl
    (fun st p => xxhash64 (coordToUint64 p.2) ((st + p.1 * GOLDEN64) % U64))
    (seed % 2 ^ 32)

/-! ### The rounding model for float32 and float64 -/

/-- Binary logarithm by repeated halving, with explicit structural fuel so
that the definition reduces inside the kernel. -/
def log2fuel : ℕ → ℕ → ℕ
  | 0, _ => 0
  | fuel + 1, n => if 2 ≤ n then log2fuel fuel (n / 2) + 1 else 0

/-- Floor of the binary logarithm of a positive natural number. -/
def natLog2 (n : ℕ) : ℕ := log2fuel n n

/-- Floor of the binary logarithm of a positive rational number. -/
def ratLog2 (q : ℚ) : ℤ :=
  if (2 : ℚ) ^ ((natLog2 q.num.toNat : ℤ) - (natLog2 q.den : ℤ)) ≤ q
  then (natLog2 q.num.toNat : ℤ) - (natLog2 q.den : ℤ)
  else (natLog2 q.num.toNat : ℤ) - (natLog2 q.den : ℤ) - 1

/-- Round a rational to the nearest integer, ties to even. -/
def rhe (y : ℚ) : ℤ :=
  if y - ⌊y⌋ < 1 / 2 then ⌊y⌋
  else if (1 : ℚ) / 2 < y - ⌊y⌋ then ⌊y⌋ + 1
  else if ⌊y⌋ % 2 = 0 then ⌊y⌋ else ⌊y⌋ + 1

/-- Round a rational to a binary floating-point value with p significand
bits: round to nearest, ties to even, unbounded exponent range. -/
def roundPrec (p : ℕ) (x : ℚ) : ℚ :=
  if x = 0 then 0 else
  let s : ℤ := (p : ℤ) - 1 - ratLog2 |x|
  (rhe (x * 2 ^ s) : ℚ) * 2 ^ (-s)

/-- One rounding step of Go float32 arithmetic. -/
def r32 (x : ℚ) : ℚ := roundPrec 24 x

/-- One rounding step of Go float64 arithmetic. -/
def r64 (x : ℚ) : ℚ := roundPrec 53 x

/-- The value x is exactly representable as a p-bit binary float. -/
def FRep (p : ℕ) (x : ℚ) : Prop := ∃ m : ℤ, ∃ k : ℤ, x = m * 2 ^ (-k) ∧ |m| ≤ 2 ^ p

/-! ### Derived random outputs (noise.go) -/

/-- The float32 produced from a finished 64-bit hash: upper 32 bits,
converted to float32, divided by 2 to the 32 in float32 arithmetic. -/
def float32OfHash (h : ℕ) : ℚ := r32 (r32 ((h / 2 ^ 32 : ℕ) : ℚ) / 2 ^ 32)

/-- The float64 produced from a finished 64-bit hash: all 64 bits,
converted to float64, divided by 2 to the 64 in float64 arithmetic. -/
def float64OfHash (h : ℕ) : ℚ := r64 (r64 ((h : ℕ) : ℚ) / 2 ^ 64)

/-- Embedding of Float32 from noise.go. -/
def Float32q (seed : ℕ) (cs : List Coord) : Option ℚ :=
  (hashCoords seed cs).map float32OfHash

/-- Embedding of Float64 from noise.go. -/
def Float64q (seed : ℕ) (cs : List Coord) : Option ℚ :=
  (hashCoords seed cs).map float64OfHash

/-- Embedding of White from noise.go: Float32 times 2 minus 1, each
operation in float32 arithmetic. -/
def Whiteq (seed : ℕ) (cs : List Coord) : Option ℚ :=
  (hashCoords seed cs).map (fun h => r32 (r32 (float32OfHash h * 2) - 1))

/-- Embedding of IntN from noise.go: the bound is checked first, so an
invalid bound fails even before the coordinates are hashed. -/
def IntNq (seed : ℕ) (n : ℤ) (cs : List Coord) : Option ℤ :=
  if n ≤ 0 then none
  else (hashCoords seed cs).map (fun h => ((h % n.toNat : ℕ) : ℤ))

/-- Embedding of UintN from noise.go. -/
def UintNq (seed n : ℕ) (cs : List Coord) : Option ℕ :=
  if n = 0 then none
  else (hashCoords seed cs).map (fun h => h % n)

/-- The first Box-Muller uniform of Norm64 from noise.go: the hash of the
coordinates mapped through the float64-in-unit-interval formula, with no
zero-replacement step. -/
def norm64u1 (seed : ℕ) (cs : List Coord) : Option ℚ :=
  (hashCoords seed cs).map float64OfHash

/-! ### Go numeric conversions -/

/-- Go conversion of a floating value to int: truncation toward zero. -/
def trunc (q : ℚ) : ℤ := if 0 ≤ q then ⌊q⌋ else ⌈q⌉

/-- Embedding of the floor helper from simplex.go: truncate, then correct
downward when the float compares below the float32 image of the truncation. -/
def goFloor (x : ℚ) : ℤ :=
  let v := trunc x
  if x < r32 ((v : ℤ) : ℚ) then v - 1 else v

/-- Go uint64 reinterpretation of an int64 value. -/
def u64ofInt (i : ℤ) : ℕ := (i % (2 ^ 64 : ℤ)).toNat

/-- Wrapping 64-bit signed arithmetic: the Go int value of an unbounded
integer expression. -/
def int64wrap (i : ℤ) : ℤ := (i + 2 ^ 63) % 2 ^ 64 - 2 ^ 63

/-! ### SSI acceleration grids (sparse.go) -/

/-- The list of integers from lo to hi inclusive. -/
def intRange (lo hi : ℤ) : List ℤ := (List.range (hi + 1 - lo).toNat).map (fun n => lo + n)

/-- The 1D acceleration grid of sparse.go: size and centering offset in
sub-cells, and the set of occupied sub-cell keys.  The Go bitmap stores a
bit per uint32 index, so a key is the index reduced modulo 2 to the 32. -/
structure Grid1 where
  size : ℤ
  offset : ℤ
  occ : List ℤ

/-- Embedding of newGrid1 from sparse.go.  The Go int arithmetic of the
size wraps at 64 bits; the wrapped size is always even, so the Go
truncating division by 2 agrees with the Euclidean division used here. -/
def newGrid1 (r1 : ℤ) : Grid1 :=
  { size := int64wrap (r1 * 4 + 10), offset := int64wrap (r1 * 4 + 10) / 2, occ := [] }

/-- The sub-cell index of a world coordinate before centering: Go computes
int(x / 0.5) in float32 and truncates toward zero. -/
def subCell (x : ℚ) : ℤ := trunc (r32 (x / (1 / 2)))

/-- Embedding of the grid1 IsValid method: reject when the centered index
is out of range, otherwise accept exactly when no occupied key lies in the
five-cell neighborhood clipped to the addressable range. -/
def grid1IsValid (g : Grid1) (x : ℚ) : Bool :=
  let gx := subCell x + g.offset
  if gx < 0 ∨ g.size ≤ gx then false
  else
    ([-2, -1, 0, 1, 2] : List ℤ).all fun d =>
      let idx := gx + d
      !(decide (0 ≤ idx) && decide (idx < g.size) && g.occ.contains (idx % 2 ^ 32))

/-- Embedding of the grid1 Set method. -/
def grid1Set (g : Grid1) (x : ℚ) : Grid1 :=
  let gx := subCell x + g.offset
  if 0 ≤ gx ∧ gx < g.size then { g with occ := gx % 2 ^ 32 :: g.occ } else g

/-- The jittered candidate of SSI1 at cell ix, attempt t: the cell index
hashed with the seed XOR the attempt number, then the Float32 jitter
centered on the cell.  Every float32 operation rounds. -/
def ssi1Jitter (seed : ℕ) (ix : ℤ) (t : ℕ) : ℚ :=
  let h := xxhash64 (u64ofInt ix) (Nat.xor (seed % 2 ^ 32) t)
  let j := float32OfHash (xxhash64 h (seed % 2 ^ 32))
  r32 (r32 ((ix : ℤ) : ℚ) + r32 (j - 1 / 2))

/-- The attempt loop of the SSI1 tryCell closure over the remaining
attempt numbers: the first valid candidate is marked and emitted. -/
def tryCell1 (seed : ℕ) (ix : ℤ) (g : Grid1) : List ℕ → Grid1 × Option ℚ
  | [] => (g, none)
  | t :: ts =>
      let x := ssi1Jitter seed ix t
      if grid1IsValid g x then (grid1Set g x, some x) else tryCell1 seed ix g ts

/-- The SSI1 main loop over the remaining cells, collecting every emitted
point in order. -/
def ssi1Run (seed : ℕ) : List ℤ → Grid1 → List ℚ
  | [], _ => []
  | ix :: rest, g =>
      match tryCell1 seed ix g [0, 1, 2] with
      | (g2, some x) => x :: ssi1Run seed rest g2
      | (g2, none) => ssi1Run seed rest g2

/-- Center-out cell order of SSI1: 0, then r and minus r for r from 1. -/
def ssi1Cells (r1 : ℤ) : List ℤ :=
  0 :: (intRange 1 r1).foldr (fun r acc => r :: -r :: acc) []

/-- Embedding of SSI1 from sparse.go: the list of all points the iterator
yields for a consumer that never cancels. -/
def ssi1List (seed : ℕ) (r1 : ℤ) : List ℚ :=
  if r1 ≤ 0 then [] else ssi1Run seed (ssi1Cells r1) (newGrid1 r1)

/-- The 2D acceleration grid of sparse.go. -/
structure Grid2 where
  w : ℤ
  h : ℤ
  offX : ℤ
  offY : ℤ
  occ : List ℤ

/-- Embedding of newGrid2 from sparse.go, with the same wrapping 64-bit
size arithmetic as newGrid1 (the wrapped sizes are even, so Go truncating
division by 2 agrees with Euclidean division). -/
def newGrid2 (r1 r2 : ℤ) : Grid2 :=
  { w := int64wrap (r1 * 4 + 10), h := int64wrap (r2 * 4 + 10)
    offX := int64wrap (r1 * 4 + 10) / 2, offY := int64wrap (r2 * 4 + 10) / 2, occ := [] }

/-- The packed bitmap key of a 2D sub-cell, reduced modulo 2 to the 32 as
by the Go uint32 conversion. -/
def grid2Key (w gx gy : ℤ) : ℤ := (gy * w + gx) % 2 ^ 32

/-- Embedding of the grid2 IsValid method: range check, then the 5 by 5
neighborhood scan clipped to the addressable rectangle. -/
def grid2IsValid (g : Grid2) (x y : ℚ) : Bool :=
  let gx := subCell x + g.offX
  let gy := subCell y + g.offY
  if gx < 0 ∨ g.w ≤ gx ∨ gy < 0 ∨ g.h ≤ gy then false
  else
    ([-2, -1, 0, 1, 2] : List ℤ).all fun dy =>
      ([-2, -1, 0, 1, 2] : List ℤ).all fun dx =>
        let nx := gx + dx
        let ny := gy + dy
        !(decide (0 ≤ nx) && decide (nx < g.w) && decide (0 ≤ ny) && decide (ny < g.h) &&
          g.occ.contains (grid2Key g.w nx ny))

/-- Embedding of the grid2 Set method. -/
def grid2Set (g : Grid2) (x y : ℚ) : Grid2 :=
  let gx := subCell x + g.offX
  let gy := subCell y + g.offY
  if 0 ≤ gx ∧ gx < g.w ∧ 0 ≤ gy ∧ gy < g.h then
    { g with occ := grid2Key g.w gx gy :: g.occ } else g

/-- The cell hash of SSI2: the two cell indices spread by two odd 64-bit
constants and combined by XOR, then mixed with seed XOR attempt. -/
def ssi2CellHash (seed : ℕ) (ix iy : ℤ) (t : ℕ) : ℕ :=
  xxhash64
    (Nat.xor (u64ofInt ix * 0x9e3779b97f4a7c15 % U64) (u64ofInt iy * 0xc2b2ae3d27d4eb4f % U64))
    (Nat.xor (seed % 2 ^ 32) t)

/-- The jittered 2D candidate of SSI2 at cell (ix, iy), attempt t.  The x
jitter hashes with the seed, the y jitter with the seed XOR 1. -/
def ssi2Jitter (seed : ℕ) (ix iy : ℤ) (t : ℕ) : ℚ × ℚ :=
  let h := ssi2CellHash seed ix iy t
  let jx := float32OfHash (xxhash64 h (seed % 2 ^ 32))
  let jy := float32OfHash (xxhash64 h (Nat.xor (seed % 2 ^ 32) 1))
  (r32 (r32 ((ix : ℤ) : ℚ) + r32 (jx - 1 / 2)), r32 (r32 ((iy : ℤ) : ℚ) + r32 (jy - 1 / 2)))

/-- The attempt loop of the SSI2 tryCell closure. -/
def tryCell2 (seed : ℕ) (ix iy : ℤ) (g : Grid2) : List ℕ → Grid2 × Option (ℚ × ℚ)
  | [] => (g, none)
  | t :: ts =>
      let p := ssi2Jitter seed ix iy t
      if grid2IsValid g p.1 p.2 then (grid2Set g p.1 p.2, some p) else tryCell2 seed ix iy g ts

/-- The SSI2 main loop over the remaining cells. -/
def ssi2Run (seed : ℕ) : List (ℤ × ℤ) → Grid2 → List (ℚ × ℚ)
  | [], _ => []
  | c :: rest, g =>
      match tryCell2 seed c.1 c.2 g [0, 1] with
      | (g2, some p) => p :: ssi2Run seed rest g2
      | (g2, none) => ssi2Run seed rest g2

/-- One expanding square ring of SSI2 cell traversal: top edge, bottom
edge, left edge, right edge, each clipped to the requested rectangle, with
the side columns skipping the rows already covered by the edges. -/
def ssi2Ring (r1 r2 r : ℤ) : List (ℤ × ℤ) :=
  let ixs := intRange (max (-r) (-r1)) (min r r1)
  let iys := intRange (max (-r + 1) (-r2)) (min (r - 1) r2)
  (if -r2 ≤ -r ∧ -r ≤ r2 then ixs.map (fun ix => (ix, -r)) else []) ++
  (if -r2 ≤ r ∧ r ≤ r2 then ixs.map (fun ix => (ix, r)) else []) ++
  (if -r1 ≤ -r ∧ -r ≤ r1 then iys.map (fun iy => (-r, iy)) else []) ++
  (if -r1 ≤ r ∧ r ≤ r1 then iys.map (fun iy => (r, iy)) else [])

/-- Center-out cell order of SSI2: the origin, then the rings r = 1 up to
the larger radius. -/
def ssi2Cells (r1 r2 : ℤ) : List (ℤ × ℤ) :=
  (0, 0) :: ((intRange 1 (max r1 r2)).map (ssi2Ring r1 r2)).foldr (· ++ ·) []

/-- Embedding of SSI2 from sparse.go. -/
def ssi2List (seed : ℕ) (r1 r2 : ℤ) : List (ℚ × ℚ) :=
  if r1 ≤ 0 ∨ r2 ≤ 0 then [] else ssi2Run seed (ssi2Cells r1 r2) (newGrid2 r1 r2)

/-! ### Simplex tables (simplex.go) -/

/-- The fixed 256-entry permutation constant of simplex.go. -/
def tableList : List ℕ := [151, 160, 137, 91, 90, 15, 131, 13, 201, 95, 96, 53, 194, 233, 7, 225, 140, 36, 103, 30, 69, 142, 8, 99, 37, 240, 21, 10, 23, 190, 6, 148, 247, 120, 234, 75, 0, 26, 197, 62, 94, 252, 219, 203, 117, 35, 11, 32, 57, 177, 33, 88, 237, 149, 56, 87, 174, 20, 125, 136, 171, 168, 68, 175, 74, 165, 71, 134, 139, 48, 27, 166, 77, 146, 158, 231, 83, 111, 229, 122, 60, 211, 133, 230, 220, 105, 92, 41, 55, 46, 245, 40, 244, 102, 143, 54, 65, 25, 63, 161, 1, 216, 80, 73, 209, 76, 132, 187, 208, 89, 18, 169, 200, 196, 135, 130, 116, 188, 159, 86, 164, 100, 109, 198, 173, 186, 3, 64, 52, 217, 226, 250, 124, 123, 5, 202, 38, 147, 118, 126, 255, 82, 85, 212, 207, 206, 59, 227, 47, 16, 58, 17, 182, 189, 28, 42, 223, 183, 170, 213, 119, 248, 152, 2, 44, 154, 163, 70, 221, 153, 101, 155, 167, 43, 172, 9, 129, 22, 39, 253, 19, 98, 108, 110, 79, 113, 224, 232, 178, 185, 112, 104, 218, 246, 97, 228, 251, 34, 242, 193, 238, 210, 144, 12, 191, 179, 162, 241, 81, 51, 145, 235, 249, 14, 239, 107, 49, 192, 214, 31, 181, 199, 106, 157, 184, 84, 204, 176, 115, 121, 50, 45, 127, 4, 150, 254, 138, 236, 205, 93, 222, 114, 67, 29, 24, 72, 243, 141, 128, 195, 78, 66, 215, 61, 156, 180]

/-- The shared 512-entry permutation table: entry i is table at i AND 255. -/
def sharedPerm (i : ℕ) : ℕ := tableList.getD (i % 256) 0

/-- The packed 2D gradient codes of simplex.go: high byte the x component,
low byte the y component, each an int8 bit pattern. -/
def g2dList : List ℕ :=
  [0x0101, 0xff01, 0x01ff, 0xffff, 0x0100, 0xff00, 0x0100, 0xff00, 0x0001, 0x00ff, 0x0001, 0x00ff]

/-- Go int8 reinterpretation of a byte. -/
def int8cast (b : ℕ) : ℤ := if b % 256 < 128 then (b % 256 : ℕ) else (b % 256 : ℕ) - 256

/-- Decode a packed 2D gradient code into its two components. -/
def g2dDecode (code : ℕ) : ℤ × ℤ := (int8cast (code / 256), int8cast code)

/-- The twelve decoded 2D gradient directions. -/
def g2dDirections : List (ℤ × ℤ) := g2dList.map g2dDecode

/-- The shared 2D gradient table of simplex.go, built by the package init
function: entry i decodes the code selected by the permutation modulo 12. -/
def sharedGrad2 (i : ℕ) : ℤ × ℤ := g2dDecode (g2dList.getD (sharedPerm i % 12) 0)

/-- The shared 3D gradient table of simplex.go, built by the package init
function: the 2D gradient with a zero third component. -/
def sharedGrad3 (i : ℕ) : ℤ × ℤ × ℤ := ((sharedGrad2 i).1, (sharedGrad2 i).2, 0)

/-- The twelve canonical 3D gradient directions, as listed by the g3d
array of initWithSeed. -/
def g3dList : List (ℤ × ℤ × ℤ) :=
  [(1, 1, 0), (-1, 1, 0), (1, -1, 0), (-1, -1, 0),
   (1, 0, 1), (-1, 0, 1), (1, 0, -1), (-1, 0, -1),
   (0, 1, 1), (0, -1, 1), (0, 1, -1), (0, -1, -1)]

/-- The 512-entry permutation table of a Simplex instance, abstracted over
the 256-entry permutation produced by the seeded Fisher-Yates shuffle
(whose byte stream comes from the Go standard library generator, outside
this repository): entry i is the base table at i modulo 256, exactly the
wraparound duplication of initWithSeed. -/
def instPerm (P : ℕ → ℕ) (i : ℕ) : ℕ := P (i % 256) % 256

/-- The per-instance 2D gradient table built by initWithSeed. -/
def instGrad2 (P : ℕ → ℕ) (i : ℕ) : ℤ × ℤ := g2dDecode (g2dList.getD (instPerm P i % 12) 0)

/-- The per-instance 3D gradient table built by initWithSeed. -/
def instGrad3 (P : ℕ → ℕ) (i : ℕ) : ℤ × ℤ × ℤ := g3dList.getD (instPerm P i % 12) (0, 0, 0)

/-! ### 2D simplex noise (simplex.go) -/

/-- The float32 image of the skew constant literal 0.36602542. -/
def f2c : ℚ := r32 (36602542 / 100000000)

/-- The float32 image of the unskew constant literal 0.21132487. -/
def g2c : ℚ := r32 (21132487 / 100000000)

/-- The float32 image of the exact constant 2 times 0.21132487 minus 1,
which Go evaluates exactly at compile time before converting. -/
def gcc : ℚ := r32 (2 * (21132487 / 100000000) - 1)

/-- The common 2D simplex evaluation, abstracted over the permutation
lookup, the gradient lookup, and the seed offset added to the lattice
indices (the package-level Noise2 adds seed AND 255, the instance method
adds nothing).  Every float32 operation rounds. -/
def noise2core (perm : ℕ → ℕ) (grad : ℕ → ℤ × ℤ) (si : ℕ) (x y : ℚ) : ℚ :=
  let s := r32 (r32 (x + y) * f2c)
  let i := goFloor (r32 (x + s))
  let j := goFloor (r32 (y + s))
  let t := r32 (r32 (((i + j : ℤ) : ℚ)) * g2c)
  let x0 := r32 (x - r32 (r32 ((i : ℤ) : ℚ) - t))
  let y0 := r32 (y - r32 (r32 ((j : ℤ) : ℚ) - t))
  let lower := y0 < x0
  let i1 : ℚ := if lower then 1 else 0
  let j1 : ℚ := if lower then 0 else 1
  let x1 := r32 (r32 (x0 - i1) + g2c)
  let y1 := r32 (r32 (y0 - j1) + g2c)
  let x2 := r32 (x0 + gcc)
  let y2 := r32 (y0 + gcc)
  let jj := ((j + si) % 256).toNat
  let ii := ((i + si) % 256).toNat
  let p0 := perm jj
  let p1 := perm (jj + (if lower then 0 else 1))
  let p2 := perm (jj + 1)
  let g0 := grad (ii + p0)
  let g1 := grad (ii + (if lower then 1 else 0) + p1)
  let g2 := grad (ii + 1 + p2)
  let n0 : ℚ := 0
  let t0 := r32 (r32 (1 / 2 - r32 (x0 * x0)) - r32 (y0 * y0))
  let n1 := if 0 < t0 then
      let v2 := r32 (t0 * t0)
      r32 (n0 + r32 (r32 (v2 * v2) * r32 (r32 ((g0.1 : ℚ) * x0) + r32 ((g0.2 : ℚ) * y0))))
    else n0
  let t1 := r32 (r32 (1 / 2 - r32 (x1 * x1)) - r32 (y1 * y1))
  let n2 := if 0 < t1 then
      let v2 := r32 (t1 * t1)
      r32 (n1 + r32 (r32 (v2 * v2) * r32 (r32 ((g1.1 : ℚ) * x1) + r32 ((g1.2 : ℚ) * y1))))
    else n1
  let t2 := r32 (r32 (1 / 2 - r32 (x2 * x2)) - r32 (y2 * y2))
  let n3 := if 0 < t2 then
      let v2 := r32 (t2 * t2)
      r32 (n2 + r32 (r32 (v2 * v2) * r32 (r32 ((g2.1 : ℚ) * x2) + r32 ((g2.2 : ℚ) * y2))))
    else n2
  r32 (70 * n3)

/-- Embedding of the package-level Noise2 from simplex.go, over the shared
tables, with the seed folded into the lattice indices modulo 256. -/
def noise2 (x y : ℚ) (seed : ℕ) : ℚ :=
  noise2core sharedPerm sharedGrad2 (seed % 2 ^ 32 % 256) x y

/-- Embedding of the Simplex noise2D method: the same evaluation over the
instance tables, with no seed offset. -/
def simplexNoise2D (P : ℕ → ℕ) (x y : ℚ) : ℚ :=
  noise2core (instPerm P) (instGrad2 P) 0 x y

/-! ### 3D simplex noise (simplex.go) -/

/-- Embedding of the Simplex noise3D method over the instance tables.
The corner-order selection follows the nested comparisons of the source,
and every float32 operation rounds. -/
def simplexNoise3D (P : ℕ → ℕ) (x y z : ℚ) : ℚ :=
  let f3 : ℚ := r32 (1 / 3)
  let g3 : ℚ := r32 (1 / 6)
  let sk := r32 (r32 (r32 (x + y) + z) * f3)
  let i := goFloor (r32 (x + sk))
  let j := goFloor (r32 (y + sk))
  let k := goFloor (r32 (z + sk))
  let t := r32 (r32 (((i + j + k : ℤ) : ℚ)) * g3)
  let x0 := r32 (x - r32 (r32 ((i : ℤ) : ℚ) - t))
  let y0 := r32 (y - r32 (r32 ((j : ℤ) : ℚ) - t))
  let z0 := r32 (z - r32 (r32 ((k : ℤ) : ℚ) - t))
  let o : (ℚ × ℚ × ℚ) × (ℚ × ℚ × ℚ) :=
    if y0 ≤ x0 then
      if z0 ≤ y0 then ((1, 0, 0), (1, 1, 0))
      else if z0 ≤ x0 then ((1, 0, 0), (1, 0, 1))
      else ((0, 0, 1), (1, 0, 1))
    else
      if y0 < z0 then ((0, 0, 1), (0, 1, 1))
      else if x0 < z0 then ((0, 1, 0), (0, 1, 1))
      else ((0, 1, 0), (1, 1, 0))
  let i1 := o.1.1
  let j1 := o.1.2.1
  let k1 := o.1.2.2
  let i2 := o.2.1
  let j2 := o.2.2.1
  let k2 := o.2.2.2
  let x1 := r32 (r32 (x0 - i1) + g3)
  let y1 := r32 (r32 (y0 - j1) + g3)
  let z1 := r32 (r32 (z0 - k1) + g3)
  let twoG3 : ℚ := r32 (2 * (1 / 6))
  let threeG3 : ℚ := r32 (3 * (1 / 6))
  let x2 := r32 (r32 (x0 - i2) + twoG3)
  let y2 := r32 (r32 (y0 - j2) + twoG3)
  let z2 := r32 (r32 (z0 - k2) + twoG3)
  let x3 := r32 (r32 (x0 - 1) + threeG3)
  let y3 := r32 (r32 (y0 - 1) + threeG3)
  let z3 := r32 (r32 (z0 - 1) + threeG3)
  let ii := (i % 256).toNat
  let jj := (j % 256).toNat
  let kk := (k % 256).toNat
  let ip := instPerm P
  let ig := instGrad3 P
  let gi0 := ip (ii + ip (jj + ip kk)) % 12
  let gi1 := ip (ii + (trunc i1).toNat + ip (jj + (trunc j1).toNat + ip (kk + (trunc k1).toNat))) % 12
  let gi2 := ip (ii + (trunc i2).toNat + ip (jj + (trunc j2).toNat + ip (kk + (trunc k2).toNat))) % 12
  let gi3 := ip (ii + 1 + ip (jj + 1 + ip (kk + 1))) % 12
  let c06 : ℚ := r32 (6 / 10)
  let contrib := fun (gi : ℕ) (dx dy dz : ℚ) =>
    let tt := r32 (r32 (r32 (c06 - r32 (dx * dx)) - r32 (dy * dy)) - r32 (dz * dz))
    if 0 ≤ tt then
      let g := ig gi
      r32 (r32 (r32 (r32 (tt * tt) * tt) * tt) *
        r32 (r32 (r32 ((g.1 : ℚ) * dx) + r32 ((g.2.1 : ℚ) * dy)) + r32 ((g.2.2 : ℚ) * dz)))
    else 0
  let n0 := contrib gi0 x0 y0 z0
  let n1 := contrib gi1 x1 y1 z1
  let n2 := contrib gi2 x2 y2 z2
  let n3 := contrib gi3 x3 y3 z3
  r32 (32 * r32 (r32 (r32 (n0 + n1) + n2) + n3))

/-! ### Fractal Brownian motion (simplex.go) -/

/-- The per-octave seed of FBM2: seed plus octave index times the 32-bit
golden constant, in wrapping uint32 arithmetic. -/
def fbmOctSeed (seed o : ℕ) : ℕ := (seed % 2 ^ 32 + o * GOLDEN32 % 2 ^ 32) % 2 ^ 32

/-- The FBM2 loop state after n octaves: running sum, amplitude, frequency
and total amplitude, each updated in float32 arithmetic exactly as in the
Go loop body. -/
def fbm2Go (x y : ℚ) (seed : ℕ) (lac gain : ℚ) : ℕ → ℚ × ℚ × ℚ × ℚ
  | 0 => (0, 1, 1, 0)
  | o + 1 =>
      let st := fbm2Go x y seed lac gain o
      let sum := st.1
      let amp := st.2.1
      let freq := st.2.2.1
      let tot := st.2.2.2
      let v := noise2 (r32 (x * freq)) (r32 (y * freq)) (fbmOctSeed seed o)
      (r32 (sum + r32 (amp * v)), r32 (amp * gain), r32 (freq * lac), r32 (tot + amp))

/-- Embedding of FBM2 from simplex.go. -/
def FBM2q (x y : ℚ) (oct : ℤ) (lac gain : ℚ) (seed : ℕ) : ℚ :=
  if oct ≤ 0 then 0 else
  let st := fbm2Go x y seed lac gain oct.toNat
  if 0 < st.2.2.2 then r32 (st.1 / st.2.2.2) else 0

/-- The same loop abstracted over the noise evaluated at each octave
index, used to state which seed each octave receives. -/
def fbm2With (noiseAt : ℕ → ℚ → ℚ → ℚ) (x y lac gain : ℚ) : ℕ → ℚ × ℚ × ℚ × ℚ
  | 0 => (0, 1, 1, 0)
  | o + 1 =>
      let st := fbm2With noiseAt x y lac gain o
      let v := noiseAt o (r32 (x * st.2.2.1)) (r32 (y * st.2.2.1))
      (r32 (st.1 + r32 (st.2.1 * v)), r32 (st.2.1 * gain), r32 (st.2.2.1 * lac), r32 (st.2.2.2 + st.2.1))

/-- Embedding of the Simplex Eval method: dispatch on the coordinate
count, one coordinate evaluating the 2D noise at y = 0; any other count
panics, rendered as none. -/
def simplexEval (P : ℕ → ℕ) : List ℚ → Option ℚ
  | [x] => some (simplexNoise2D P x 0)
  | [x, y] => some (simplexNoise2D P x y)
  | [x, y, z] => some (simplexNoise3D P x y z)
  | _ => none

/-- The FBM Eval loop after n octaves, over the instance permutation P:
none as soon as the simplex evaluation panics. -/
def fbmEvalLoop (P : ℕ → ℕ) (coords : List ℚ) (lac gain : ℚ) : ℕ → Option (ℚ × ℚ × ℚ × ℚ)
  | 0 => some (0, 1, 1, 0)
  | o + 1 =>
      match fbmEvalLoop P coords lac gain o with
      | none => none
      | some st =>
          match simplexEval P (coords.map fun c => r32 (c * st.2.2.1)) with
          | none => none
          | some v =>
              some (r32 (st.1 + r32 (st.2.1 * v)), r32 (st.2.1 * gain),
                r32 (st.2.2.1 * lac), r32 (st.2.2.2 + st.2.1))

/-- Embedding of the FBM Eval method from simplex.go, abstracted over the
instance permutation table P owned by its Simplex: fewer than four
parameters panic; the first parameter is truncated to the octave count;
octaves at most zero return zero before any evaluation. -/
def fbmEval (P : ℕ → ℕ) (params : List ℚ) : Option ℚ :=
  if params.length < 4 then none else
  let oct := trunc (params.getD 0 0)
  let lac := params.getD 1 0
  let gain := params.getD 2 0
  let coords := params.drop 3
  if oct ≤ 0 then some 0 else
  match fbmEvalLoop P coords lac gain oct.toNat with
  | none => none
  | some st => some (if 0 < st.2.2.2 then r32 (st.1 / st.2.2.2) else 0)

/-! ### Sparse projections (sparse.go) -/

/-- The lattice radius of the sparse projections: the float64 quotient of
the width by twice the gap, ceiled.  Go computes math.Ceil on the rounded
float64 quotient and converts the integral result to int exactly. -/
def sparseRadius (w gap : ℤ) : ℤ := ⌈r64 (r64 ((w : ℤ) : ℚ) / r64 (((2 * gap : ℤ) : ℤ) : ℚ))⌉

/-- The pixel projection of one continuous SSI1 point: scale by the
float32 gap, add the float32 half width, truncate toward zero, and drop
the result when it falls outside the target range. -/
def sparseProj1 (w gap : ℤ) (x : ℚ) : Option ℤ :=
  let px := r32 (x * r32 ((gap : ℤ) : ℚ))
  let ix := trunc (r32 (px + r32 (r32 ((w : ℤ) : ℚ) / 2)))
  if 0 ≤ ix ∧ ix < w then some ix else none

/-- Embedding of Sparse1 from sparse.go. -/
def sparse1List (seed : ℕ) (w gap : ℤ) : List ℤ :=
  if w ≤ 0 ∨ gap ≤ 0 then []
  else (ssi1List seed (sparseRadius w gap)).filterMap (sparseProj1 w gap)

/-- The pixel projection of one continuous SSI2 point. -/
def sparseProj2 (w h gap : ℤ) (p : ℚ × ℚ) : Option (ℤ × ℤ) :=
  let ix := trunc (r32 (r32 (p.1 * r32 ((gap : ℤ) : ℚ)) + r32 (r32 ((w : ℤ) : ℚ) / 2)))
  let iy := trunc (r32 (r32 (p.2 * r32 ((gap : ℤ) : ℚ)) + r32 (r32 ((h : ℤ) : ℚ) / 2)))
  if 0 ≤ ix ∧ ix < w ∧ 0 ≤ iy ∧ iy < h then some (ix, iy) else none

/-- Embedding of Sparse2 from sparse.go. -/
def sparse2List (seed : ℕ) (w h gap : ℤ) : List (ℤ × ℤ) :=
  if w ≤ 0 ∨ h ≤ 0 ∨ gap ≤ 0 then []
  else (ssi2List seed (sparseRadius w gap) (sparseRadius h gap)).filterMap (sparseProj2 w h gap)

/-- The C7 claim reading of Sparse1, stated for comparison with the code:
lattice radius the exact rational ceiling, projection the exact rational
floor of point times gap plus half width, bounds-dropped. -/
def sparse1ClaimList (seed : ℕ) (w gap : ℤ) : List ℤ :=
  if w ≤ 0 ∨ gap ≤ 0 then []
  else
    (ssi1List seed ⌈(w : ℚ) / (2 * (gap : ℚ))⌉).filterMap fun x =>
      let ix := ⌊x * (gap : ℚ) + (w : ℚ) / 2⌋
      if 0 ≤ ix ∧ ix < w then some ix else none

/-! ### Invariants used by the SSI proofs -/

/-- Invariant tying the 1D grid to the points already emitted: every
emitted point is a float32 value whose centered sub-cell index is in the
addressable range and whose key is occupied. -/
def grid1Inv (g : Grid1) (pts : List ℚ) : Prop :=
  ∀ p ∈ pts, FRep 24 p ∧ 0 ≤ subCell p + g.offset ∧ subCell p + g.offset < g.size ∧
    (subCell p + g.offset) % 2 ^ 32 ∈ g.occ

/-- Invariant tying the 2D grid to the points already emitted. -/
def grid2Inv (g : Grid2) (pts : List (ℚ × ℚ)) : Prop :=
  ∀ p ∈ pts, FRep 24 p.1 ∧ FRep 24 p.2 ∧
    0 ≤ subCell p.1 + g.offX ∧ subCell p.1 + g.offX < g.w ∧
    0 ≤ subCell p.2 + g.offY ∧ subCell p.2 + g.offY < g.h ∧
    grid2Key g.w (subCell p.1 + g.offX) (subCell p.2 + g.offY) ∈ g.occ

/-- Minimum-distance relation between two 1D samples. -/
def dist1ok (p q : ℚ) : Prop := 1 ≤ |p - q|

/-- Minimum squared-distance relation between two 2D samples. -/
def dist2ok (p q : ℚ × ℚ) : Prop := 1 ≤ (p.1 - q.1) ^ 2 + (p.2 - q.2) ^ 2

/-! ### Lemmas about the binary logarithm -/

theorem log2fuel_spec : ∀ fuel n : ℕ, 1 ≤ n → n ≤ fuel →
    2 ^ log2fuel fuel n ≤ n ∧ n < 2 ^ (log2fuel fuel n + 1) := by
  intro fuel
  induction fuel with
  | zero => intro n h1 h2; omega
  | succ f ih =>
      intro n h1 h2
      by_cases h : 2 ≤ n
      · have hrec := ih (n / 2) (by omega) (by omega)
        have hdef : log2fuel (f + 1) n = log2fuel f (n / 2) + 1 := by
          simp [log2fuel, h]
        rw [hdef]
        constructor
        · have : 2 ^ (log2fuel f (n / 2) + 1) = 2 * 2 ^ log2fuel f (n / 2) := by ring
          rw [this]
          omega
        · have : 2 ^ (log2fuel f (n / 2) + 1 + 1) = 2 * 2 ^ (log2fuel f (n / 2) + 1) := by ring
          rw [this]
          omega
      · have hdef : log2fuel (f + 1) n = 0 := by simp [log2fuel, h]
        rw [hdef]
        omega

theorem natLog2_spec (n : ℕ) (h : 1 ≤ n) :
    2 ^ natLog2 n ≤ n ∧ n < 2 ^ (natLog2 n + 1) :=
  log2fuel_spec n n h le_rfl

theorem two_pow_natCast_q (n : ℕ) : ((2 ^ n : ℕ) : ℚ) = (2 : ℚ) ^ (n : ℤ) := by
  rw [zpow_natCast]; push_cast; ring

theorem ratLog2_spec (q : ℚ) (hq : 0 < q) :
    (2 : ℚ) ^ ratLog2 q ≤ q ∧ q < 2 ^ (ratLog2 q + 1) := by
  have hnum : 0 < q.num := Rat.num_pos.mpr hq
  obtain ⟨ha1, ha2⟩ := natLog2_spec q.num.toNat (by omega)
  obtain ⟨hb1, hb2⟩ := natLog2_spec q.den q.pos
  set la : ℤ := (natLog2 q.num.toNat : ℤ) with hla
  set lb : ℤ := (natLog2 q.den : ℤ) with hlb
  have hnum' : ((q.num.toNat : ℕ) : ℚ) = (q.num : ℚ) := by
    exact_mod_cast congrArg (fun z : ℤ => (z : ℚ)) (Int.toNat_of_nonneg (le_of_lt hnum))
  have hqeq : q = (q.num : ℚ) / (q.den : ℚ) := (Rat.num_div_den q).symm
  have hdenq : (0 : ℚ) < (q.den : ℚ) := by exact_mod_cast q.pos
  have hA1 : (2 : ℚ) ^ la ≤ (q.num : ℚ) := by
    rw [← hnum', hla, ← two_pow_natCast_q]
    exact_mod_cast ha1
  have hA2 : (q.num : ℚ) < 2 ^ (la + 1) := by
    rw [← hnum', hla]
    calc ((q.num.toNat : ℕ) : ℚ) < ((2 ^ (natLog2 q.num.toNat + 1) : ℕ) : ℚ) := by
          exact_mod_cast ha2
      _ = (2 : ℚ) ^ ((natLog2 q.num.toNat : ℤ) + 1) := by
          rw [two_pow_natCast_q]; push_cast; ring
  have hB1 : (2 : ℚ) ^ lb ≤ (q.den : ℚ) := by
    rw [hlb, ← two_pow_natCast_q]
    exact_mod_cast hb1
  have hB2 : (q.den : ℚ) < 2 ^ (lb + 1) := by
    rw [hlb]
    calc ((q.den : ℕ) : ℚ) < ((2 ^ (natLog2 q.den + 1) : ℕ) : ℚ) := by exact_mod_cast hb2
      _ = (2 : ℚ) ^ ((natLog2 q.den : ℤ) + 1) := by
          rw [two_pow_natCast_q]; push_cast; ring
  have hlow : (2 : ℚ) ^ (la - lb - 1) < q := by
    rw [hqeq, lt_div_iff₀ hdenq]
    calc (2 : ℚ) ^ (la - lb - 1) * (q.den : ℚ)
        < 2 ^ (la - lb - 1) * 2 ^ (lb + 1) := by
          apply mul_lt_mul_of_pos_left hB2 (by positivity)
      _ = 2 ^ la := by
          rw [← zpow_add₀ (two_ne_zero : (2:ℚ) ≠ 0)]; congr 1; ring
      _ ≤ (q.num : ℚ) := hA1
  have hhigh : q < (2 : ℚ) ^ (la - lb + 1) := by
    rw [hqeq, div_lt_iff₀ hdenq]
    calc (q.num : ℚ) < 2 ^ (la + 1) := hA2
      _ = 2 ^ (la - lb + 1) * 2 ^ lb := by
          rw [← zpow_add₀ (two_ne_zero : (2:ℚ) ≠ 0)]; congr 1; ring
      _ ≤ 2 ^ (la - lb + 1) * (q.den : ℚ) := by
          apply mul_le_mul_of_nonneg_left hB1 (by positivity)
  unfold ratLog2
  rw [← hla, ← hlb]
  by_cases hcase : (2 : ℚ) ^ (la - lb) ≤ q
  · rw [if_pos hcase]
    exact ⟨hcase, hhigh⟩
  · rw [if_neg hcase]
    constructor
    · exact le_of_lt hlow
    · have he : la - lb - 1 + 1 = la - lb := by ring
      rw [he]
      exact lt_of_not_le hcase

theorem ratLog2_unique (q : ℚ) (a : ℤ) (h1 : (2 : ℚ) ^ a ≤ q) (h2 : q < 2 ^ (a + 1)) :
    ratLog2 q = a := by
  have hq : 0 < q := lt_of_lt_of_le (by positivity) h1
  obtain ⟨hl, hh⟩ := ratLog2_spec q hq
  set e := ratLog2 q
  have h3 : (2 : ℚ) ^ e < 2 ^ (a + 1) := lt_of_le_of_lt hl h2
  have h4 : (2 : ℚ) ^ a < 2 ^ (e + 1) := lt_of_le_of_lt h1 hh
  have h5 : e < a + 1 := by
    exact_mod_cast (zpow_lt_zpow_iff_right₀ (by norm_num : (1:ℚ) < 2)).mp h3
  have h6 : a < e + 1 := by
    exact_mod_cast (zpow_lt_zpow_iff_right₀ (by norm_num : (1:ℚ) < 2)).mp h4
  omega

/-! ### Lemmas about rounding to nearest integer, ties to even -/

theorem rhe_cases (y : ℚ) : rhe y = ⌊y⌋ ∨ rhe y = ⌊y⌋ + 1 := by
  unfold rhe
  split_ifs <;> simp

theorem floor_le_rhe (y : ℚ) : ⌊y⌋ ≤ rhe y := by
  rcases rhe_cases y with h | h <;> omega

theorem rhe_le_floor_add_one (y : ℚ) : rhe y ≤ ⌊y⌋ + 1 := by
  rcases rhe_cases y with h | h <;> omega

theorem rhe_ge (y : ℚ) : y - 1 / 2 ≤ (rhe y : ℚ) := by
  unfold rhe
  have h1 := Int.floor_le y
  have h2 := Int.lt_floor_add_one y
  split_ifs with hc1 hc2 <;> push_cast <;> linarith

theorem rhe_le (y : ℚ) : (rhe y : ℚ) ≤ y + 1 / 2 := by
  unfold rhe
  have h1 := Int.floor_le y
  have h2 := Int.lt_floor_add_one y
  split_ifs with hc1 hc2 <;> push_cast <;> linarith

theorem rhe_intCast (n : ℤ) : rhe ((n : ℤ) : ℚ) = n := by
  unfold rhe
  rw [Int.floor_intCast]
  norm_num

theorem rhe_mono {y z : ℚ} (h : y ≤ z) : rhe y ≤ rhe z := by
  rcases lt_or_ge ⌊y⌋ ⌊z⌋ with hf | hf
  · calc rhe y ≤ ⌊y⌋ + 1 := rhe_le_floor_add_one y
      _ ≤ ⌊z⌋ := by omega
      _ ≤ rhe z := floor_le_rhe z
  · have hf2 : ⌊y⌋ ≤ ⌊z⌋ := Int.floor_mono h
    have hfe : ⌊y⌋ = ⌊z⌋ := le_antisymm hf2 hf
    unfold rhe
    rw [hfe]
    have hfrac : z - ⌊z⌋ ≥ y - ⌊z⌋ := by linarith
    split_ifs with a1 a2 b1 b2 b3 b4 b5 <;> first | omega | linarith

theorem rhe_neg (y : ℚ) : rhe (-y) = -rhe y := by
  by_cases hint : ∃ n : ℤ, y = (n : ℚ)
  · obtain ⟨n, rfl⟩ := hint
    have h1 : -((n : ℤ) : ℚ) = ((-n : ℤ) : ℚ) := by push_cast; ring
    rw [h1, rhe_intCast, rhe_intCast]
  · have hfr : (⌊y⌋ : ℚ) < y := by
      rcases lt_or_eq_of_le (Int.floor_le y) with h | h
      · exact h
      · exact absurd ⟨⌊y⌋, h.symm⟩ hint
    have hceil : ⌊-y⌋ = -⌊y⌋ - 1 := by
      apply Int.floor_eq_iff.mpr
      constructor
      · push_cast
        have := Int.lt_floor_add_one y
        linarith
      · push_cast
        linarith
    unfold rhe
    rw [hceil]
    have h2 := Int.lt_floor_add_one y
    have hpar : (-⌊y⌋ - 1) % 2 = 0 ↔ ¬(⌊y⌋ % 2 = 0) := by omega
    split_ifs with a1 a2 a3 b1 b2 b3 b4 b5 <;> push_cast at * <;> try omega
    all_goals linarith

/-! ### Lemmas about precision rounding -/

theorem roundPrec_zero (p : ℕ) : roundPrec p 0 = 0 := by simp [roundPrec]

theorem roundPrec_of_ne (p : ℕ) (x : ℚ) (hx : x ≠ 0) :
    roundPrec p x =
      (rhe (x * 2 ^ ((p : ℤ) - 1 - ratLog2 |x|)) : ℚ) * 2 ^ (-((p : ℤ) - 1 - ratLog2 |x|)) := by
  simp [roundPrec, hx]

theorem roundPrec_neg (p : ℕ) (x : ℚ) : roundPrec p (-x) = -roundPrec p x := by
  by_cases hx : x = 0
  · simp [hx, roundPrec_zero]
  · have hnx : -x ≠ 0 := neg_ne_zero.mpr hx
    rw [roundPrec_of_ne p x hx, roundPrec_of_ne p (-x) hnx, abs_neg]
    have h1 : -x * 2 ^ ((p : ℤ) - 1 - ratLog2 |x|) = -(x * 2 ^ ((p : ℤ) - 1 - ratLog2 |x|)) := by
      ring
    rw [h1, rhe_neg]
    push_cast
    ring

theorem natCast_two_pow_q (k : ℕ) : (((2 ^ k : ℕ) : ℤ) : ℚ) = (2 : ℚ) ^ (k : ℤ) := by
  rw [zpow_natCast]; push_cast; ring

theorem roundPrec_scaled_lb (p : ℕ) (x : ℚ) (hx : 0 < x) :
    (2 : ℚ) ^ ((p : ℤ) - 1) ≤ x * 2 ^ ((p : ℤ) - 1 - ratLog2 |x|) := by
  have habs : |x| = x := abs_of_pos hx
  obtain ⟨hl, _⟩ := ratLog2_spec x hx
  calc (2 : ℚ) ^ ((p : ℤ) - 1)
      = 2 ^ ratLog2 x * 2 ^ ((p : ℤ) - 1 - ratLog2 x) := by
        rw [← zpow_add₀ (two_ne_zero : (2:ℚ) ≠ 0)]; congr 1; ring
    _ ≤ x * 2 ^ ((p : ℤ) - 1 - ratLog2 x) := by
        apply mul_le_mul_of_nonneg_right hl (by positivity)
    _ = x * 2 ^ ((p : ℤ) - 1 - ratLog2 |x|) := by rw [habs]

theorem roundPrec_scaled_ub (p : ℕ) (x : ℚ) (hx : 0 < x) :
    x * 2 ^ ((p : ℤ) - 1 - ratLog2 |x|) < 2 ^ (p : ℤ) := by
  have habs : |x| = x := abs_of_pos hx
  obtain ⟨_, hh⟩ := ratLog2_spec x hx
  calc x * 2 ^ ((p : ℤ) - 1 - ratLog2 |x|)
      = x * 2 ^ ((p : ℤ) - 1 - ratLog2 x) := by rw [habs]
    _ < 2 ^ (ratLog2 x + 1) * 2 ^ ((p : ℤ) - 1 - ratLog2 x) := by
        apply mul_lt_mul_of_pos_right hh (by positivity)
    _ = 2 ^ (p : ℤ) := by
        rw [← zpow_add₀ (two_ne_zero : (2:ℚ) ≠ 0)]; congr 1; ring

theorem roundPrec_le_pow (p : ℕ) (x : ℚ) (hx : 0 < x) :
    roundPrec p x ≤ 2 ^ (ratLog2 x + 1) := by
  have habs : |x| = x := abs_of_pos hx
  rw [roundPrec_of_ne p x (ne_of_gt hx), habs]
  set s : ℤ := (p : ℤ) - 1 - ratLog2 x with hs
  have hub : x * 2 ^ s < 2 ^ (p : ℤ) := by
    have := roundPrec_scaled_ub p x hx
    rw [habs] at this
    exact this
  have h2p : ((2 ^ p : ℕ) : ℚ) = (2 : ℚ) ^ (p : ℤ) := two_pow_natCast_q p
  have hrle : rhe (x * 2 ^ s) ≤ ((2 ^ p : ℕ) : ℤ) := by
    have := rhe_mono (le_of_lt hub)
    rwa [show ((2:ℚ) ^ (p : ℤ)) = ((((2 ^ p : ℕ) : ℤ) : ℚ)) from by
      rw [natCast_two_pow_q], rhe_intCast] at this
  calc (rhe (x * 2 ^ s) : ℚ) * 2 ^ (-s)
      ≤ (((2 ^ p : ℕ) : ℤ) : ℚ) * 2 ^ (-s) := by
        apply mul_le_mul_of_nonneg_right (by exact_mod_cast hrle) (by positivity)
    _ = 2 ^ (p : ℤ) * 2 ^ (-s) := by rw [natCast_two_pow_q]
    _ = 2 ^ (ratLog2 x + 1) := by
        rw [← zpow_add₀ (two_ne_zero : (2:ℚ) ≠ 0)]; congr 1; rw [hs]; ring

theorem roundPrec_ge_pow (p : ℕ) (x : ℚ) (hx : 0 < x) (hp : 1 ≤ p) :
    (2 : ℚ) ^ ratLog2 x ≤ roundPrec p x := by
  have habs : |x| = x := abs_of_pos hx
  rw [roundPrec_of_ne p x (ne_of_gt hx), habs]
  set s : ℤ := (p : ℤ) - 1 - ratLog2 x with hs
  have hlb : (2 : ℚ) ^ ((p : ℤ) - 1) ≤ x * 2 ^ s := by
    have := roundPrec_scaled_lb p x hx
    rw [habs] at this
    exact this
  have hcast : ((p : ℤ) - 1) = ((p - 1 : ℕ) : ℤ) := by omega
  have h2p : (2 : ℚ) ^ ((p : ℤ) - 1) = ((((2 ^ (p - 1) : ℕ) : ℤ) : ℚ)) := by
    rw [natCast_two_pow_q, hcast]
  have hrge : ((2 ^ (p - 1) : ℕ) : ℤ) ≤ rhe (x * 2 ^ s) := by
    have := rhe_mono hlb
    rwa [h2p, rhe_intCast] at this
  calc (2 : ℚ) ^ ratLog2 x
      = 2 ^ ((p : ℤ) - 1) * 2 ^ (-s) := by
        rw [← zpow_add₀ (two_ne_zero : (2:ℚ) ≠ 0)]; congr 1; rw [hs]; ring
    _ ≤ (rhe (x * 2 ^ s) : ℚ) * 2 ^ (-s) := by
        apply mul_le_mul_of_nonneg_right _ (by positivity)
        rw [h2p]
        exact_mod_cast hrge

theorem roundPrec_pos (p : ℕ) (x : ℚ) (hx : 0 < x) (hp : 1 ≤ p) : 0 < roundPrec p x :=
  lt_of_lt_of_le (by positivity) (roundPrec_ge_pow p x hx hp)

theorem roundPrec_nonneg (p : ℕ) (x : ℚ) (hx : 0 ≤ x) (hp : 1 ≤ p) : 0 ≤ roundPrec p x := by
  rcases lt_or_eq_of_le hx with h | h
  · exact le_of_lt (roundPrec_pos p x h hp)
  · rw [← h, roundPrec_zero]

theorem roundPrec_neg_of_neg (p : ℕ) (x : ℚ) (hx : x < 0) (hp : 1 ≤ p) : roundPrec p x < 0 := by
  have h1 : 0 < roundPrec p (-x) := roundPrec_pos p (-x) (by linarith) hp
  rw [roundPrec_neg] at h1
  linarith

theorem roundPrec_eq_zero_iff (p : ℕ) (x : ℚ) (hp : 1 ≤ p) :
    roundPrec p x = 0 ↔ x = 0 := by
  constructor
  · intro h
    by_contra hx
    rcases lt_trichotomy x 0 with hlt | heq | hgt
    · exact absurd h (ne_of_lt (roundPrec_neg_of_neg p x hlt hp))
    · exact hx heq
    · exact absurd h (ne_of_gt (roundPrec_pos p x hgt hp))
  · intro h
    rw [h, roundPrec_zero]

theorem rhe_abs_err (y : ℚ) : |(rhe y : ℚ) - y| ≤ 1 / 2 := by
  have h1 := rhe_ge y
  have h2 := rhe_le y
  rw [abs_le]
  constructor <;> linarith

theorem roundPrec_err (p : ℕ) (x : ℚ) (hx : x ≠ 0) :
    |roundPrec p x - x| ≤ 2 ^ (ratLog2 |x| - p) := by
  rw [roundPrec_of_ne p x hx]
  set s : ℤ := (p : ℤ) - 1 - ratLog2 |x| with hs
  have hinv : (2 : ℚ) ^ s * 2 ^ (-s) = 1 := by
    rw [← zpow_add₀ (two_ne_zero : (2:ℚ) ≠ 0)]
    simp
  have heq : (rhe (x * 2 ^ s) : ℚ) * 2 ^ (-s) - x
      = ((rhe (x * 2 ^ s) : ℚ) - x * 2 ^ s) * 2 ^ (-s) := by
    calc (rhe (x * 2 ^ s) : ℚ) * 2 ^ (-s) - x
        = (rhe (x * 2 ^ s) : ℚ) * 2 ^ (-s) - x * ((2 : ℚ) ^ s * 2 ^ (-s)) := by
          rw [hinv, mul_one]
      _ = ((rhe (x * 2 ^ s) : ℚ) - x * 2 ^ s) * 2 ^ (-s) := by ring
  calc |(rhe (x * 2 ^ s) : ℚ) * 2 ^ (-s) - x|
      = |(rhe (x * 2 ^ s) : ℚ) - x * 2 ^ s| * 2 ^ (-s) := by
        rw [heq, abs_mul, abs_of_pos (a := (2:ℚ) ^ (-s)) (by positivity)]
    _ ≤ 1 / 2 * 2 ^ (-s) := by
        apply mul_le_mul_of_nonneg_right (rhe_abs_err _) (by positivity)
    _ = 2 ^ (ratLog2 |x| - p) := by
        rw [show (1 : ℚ) / 2 = 2 ^ (-1 : ℤ) from by norm_num]
        rw [← zpow_add₀ (two_ne_zero : (2:ℚ) ≠ 0)]
        congr 1
        rw [hs]
        ring

theorem ratLog2_mono {x y : ℚ} (hx : 0 < x) (h : x ≤ y) : ratLog2 x ≤ ratLog2 y := by
  have hy : 0 < y := lt_of_lt_of_le hx h
  obtain ⟨hx1, _⟩ := ratLog2_spec x hx
  obtain ⟨_, hy2⟩ := ratLog2_spec y hy
  have : (2 : ℚ) ^ ratLog2 x < 2 ^ (ratLog2 y + 1) := by
    calc (2 : ℚ) ^ ratLog2 x ≤ x := hx1
      _ ≤ y := h
      _ < 2 ^ (ratLog2 y + 1) := hy2
  have := (zpow_lt_zpow_iff_right₀ (by norm_num : (1:ℚ) < 2)).mp this
  omega

theorem roundPrec_mono (p : ℕ) (hp : 1 ≤ p) {x y : ℚ} (h : x ≤ y) :
    roundPrec p x ≤ roundPrec p y := by
  have key : ∀ a b : ℚ, 0 < a → a ≤ b → roundPrec p a ≤ roundPrec p b := by
    intro a b ha hab
    have hb : 0 < b := lt_of_lt_of_le ha hab
    have hle : ratLog2 a ≤ ratLog2 b := ratLog2_mono ha hab
    rcases eq_or_lt_of_le hle with heq | hlt
    · rw [roundPrec_of_ne p a (ne_of_gt ha), roundPrec_of_ne p b (ne_of_gt hb),
        abs_of_pos ha, abs_of_pos hb, ← heq]
      apply mul_le_mul_of_nonneg_right _ (by positivity)
      have := rhe_mono (mul_le_mul_of_nonneg_right hab
        (by positivity : (0:ℚ) ≤ 2 ^ ((p : ℤ) - 1 - ratLog2 a)))
      exact_mod_cast this
    · calc roundPrec p a ≤ 2 ^ (ratLog2 a + 1) := roundPrec_le_pow p a ha
        _ ≤ 2 ^ ratLog2 b := by
            apply zpow_le_zpow_right₀ (by norm_num : (1:ℚ) ≤ 2)
            omega
        _ ≤ roundPrec p b := roundPrec_ge_pow p b hb hp
  rcases lt_trichotomy x 0 with hxneg | hx0 | hxpos
  · rcases lt_trichotomy y 0 with hyneg | hy0 | hypos
    · have := key (-y) (-x) (by linarith) (by linarith)
      rw [roundPrec_neg, roundPrec_neg] at this
      linarith
    · rw [hy0, roundPrec_zero]
      exact le_of_lt (roundPrec_neg_of_neg p x hxneg hp)
    · have h1 := roundPrec_neg_of_neg p x hxneg hp
      have h2 := roundPrec_pos p y hypos hp
      linarith
  · rw [hx0, roundPrec_zero]
    exact roundPrec_nonneg p y (by linarith) hp
  · exact key x y hxpos h

theorem roundPrec_two_zpow (p : ℕ) (hp : 1 ≤ p) (j : ℤ) : roundPrec p ((2 : ℚ) ^ j) = 2 ^ j := by
  have hpos : (0 : ℚ) < 2 ^ j := by positivity
  have he : ratLog2 |(2 : ℚ) ^ j| = j := by
    rw [abs_of_pos hpos]
    apply ratLog2_unique
    · exact le_rfl
    · exact zpow_lt_zpow_right₀ (by norm_num : (1:ℚ) < 2) (by omega)
  rw [roundPrec_of_ne p _ (ne_of_gt hpos), he]
  have harg : (2 : ℚ) ^ j * 2 ^ ((p : ℤ) - 1 - j) = 2 ^ ((p : ℤ) - 1) := by
    rw [← zpow_add₀ (two_ne_zero : (2:ℚ) ≠ 0)]
    congr 1
    ring
  rw [harg]
  have hcast : (2 : ℚ) ^ ((p : ℤ) - 1) = ((((2 : ℤ) ^ ((p : ℤ) - 1).toNat) : ℤ) : ℚ) := by
    push_cast
    rw [← zpow_natCast]
    · congr 1
      omega
  rw [hcast, rhe_intCast, ← hcast, ← zpow_add₀ (two_ne_zero : (2:ℚ) ≠ 0)]
  congr 1
  ring

theorem roundPrec_dyadic (p : ℕ) (hp : 1 ≤ p) (m k : ℤ) (hm : |m| ≤ 2 ^ p) :
    roundPrec p ((m : ℚ) * 2 ^ (-k)) = (m : ℚ) * 2 ^ (-k) := by
  rcases eq_or_ne m 0 with rfl | hm0
  · simp [roundPrec_zero]
  have hpow : ((2 ^ p : ℤ) : ℚ) * 2 ^ (-k) = (2 : ℚ) ^ ((p : ℤ) - k) := by
    push_cast
    rw [← zpow_natCast (2:ℚ) p, ← zpow_add₀ (two_ne_zero : (2:ℚ) ≠ 0)]
    try congr 1
    try ring
  rcases eq_or_lt_of_le hm with habs | habs
  · -- the mantissa is exactly the power bound: the value is a pure power of two
    rcases (abs_eq (by positivity : (0:ℤ) ≤ 2 ^ p)).mp habs with hmm | hmm
    · subst hmm
      rw [hpow, roundPrec_two_zpow p hp]
    · subst hmm
      have hx : ((-(2 ^ p) : ℤ) : ℚ) * 2 ^ (-k) = -(((2 ^ p : ℤ) : ℚ) * 2 ^ (-k)) := by
        push_cast
        ring
      rw [hx, hpow, roundPrec_neg, roundPrec_two_zpow p hp]
  · -- the mantissa fits strictly: the scaled value is an integer
    set x : ℚ := (m : ℚ) * 2 ^ (-k) with hxdef
    have hx0 : x ≠ 0 := by
      rw [hxdef]
      apply mul_ne_zero
      · exact_mod_cast hm0
      · positivity
    have habsx : |x| = (|m| : ℚ) * 2 ^ (-k) := by
      rw [hxdef, abs_mul, abs_of_pos (show (0:ℚ) < 2 ^ (-k) by positivity)]
      try push_cast
      try ring
    have hxub : |x| < 2 ^ ((p : ℤ) - k) := by
      rw [habsx]
      have : (|m| : ℚ) < ((2 ^ p : ℤ) : ℚ) := by exact_mod_cast habs
      calc (|m| : ℚ) * 2 ^ (-k) < ((2 ^ p : ℤ) : ℚ) * 2 ^ (-k) := by
            apply mul_lt_mul_of_pos_right this (by positivity)
        _ = 2 ^ ((p : ℤ) - k) := by
            push_cast
            rw [← zpow_natCast (2:ℚ) p, ← zpow_add₀ (two_ne_zero : (2:ℚ) ≠ 0)]
            try congr 1
            try ring
    have he : ratLog2 |x| ≤ (p : ℤ) - k - 1 := by
      have hpos : 0 < |x| := abs_pos.mpr hx0
      obtain ⟨hl, _⟩ := ratLog2_spec |x| hpos
      have : (2 : ℚ) ^ ratLog2 |x| < 2 ^ ((p : ℤ) - k) := lt_of_le_of_lt hl hxub
      have := (zpow_lt_zpow_iff_right₀ (by norm_num : (1:ℚ) < 2)).mp this
      omega
    rw [roundPrec_of_ne p x hx0]
    set s : ℤ := (p : ℤ) - 1 - ratLog2 |x| with hs
    have hsk : 0 ≤ s - k := by omega
    have harg : x * 2 ^ s = ((m * 2 ^ (s - k).toNat : ℤ) : ℚ) := by
      rw [hxdef]
      push_cast
      rw [← zpow_natCast (2:ℚ) (s - k).toNat, Int.toNat_of_nonneg hsk, mul_assoc,
        ← zpow_add₀ (two_ne_zero : (2:ℚ) ≠ 0)]
      congr 2
      ring
    rw [harg, rhe_intCast, ← harg, mul_assoc, ← zpow_add₀ (two_ne_zero : (2:ℚ) ≠ 0)]
    simp

theorem FRep_roundPrec_eq (p : ℕ) (hp : 1 ≤ p) (x : ℚ) (h : FRep p x) :
    roundPrec p x = x := by
  obtain ⟨m, k, rfl, hm⟩ := h
  exact roundPrec_dyadic p hp m k hm

theorem FRep_neg (p : ℕ) (x : ℚ) (h : FRep p x) : FRep p (-x) := by
  obtain ⟨m, k, rfl, hm⟩ := h
  exact ⟨-m, k, by push_cast; ring, by rw [abs_neg]; exact hm⟩

theorem FRep_mul_zpow (p : ℕ) (x : ℚ) (j : ℤ) (h : FRep p x) : FRep p (x * 2 ^ j) := by
  obtain ⟨m, k, rfl, hm⟩ := h
  refine ⟨m, k - j, ?_, hm⟩
  rw [mul_assoc, ← zpow_add₀ (two_ne_zero : (2:ℚ) ≠ 0)]
  congr 2
  ring

theorem FRep_int (p : ℕ) (n : ℤ) (h : |n| ≤ 2 ^ p) : FRep p ((n : ℤ) : ℚ) :=
  ⟨n, 0, by norm_num, h⟩

theorem roundPrec_FRep (p : ℕ) (hp : 1 ≤ p) (x : ℚ) : FRep p (roundPrec p x) := by
  rcases eq_or_ne x 0 with rfl | hx
  · exact ⟨0, 0, by simp [roundPrec_zero], by positivity⟩
  have key : ∀ z : ℚ, 0 < z → FRep p (roundPrec p z) := by
    intro z hz
    rw [roundPrec_of_ne p z (ne_of_gt hz)]
    set s : ℤ := (p : ℤ) - 1 - ratLog2 |z| with hs
    refine ⟨rhe (z * 2 ^ s), s, rfl, ?_⟩
    have hub : z * 2 ^ s < 2 ^ (p : ℤ) := roundPrec_scaled_ub p z hz
    have hlb : (2 : ℚ) ^ ((p : ℤ) - 1) ≤ z * 2 ^ s := roundPrec_scaled_lb p z hz
    have h1 : (rhe (z * 2 ^ s) : ℚ) ≤ 2 ^ (p : ℤ) + 1 / 2 := by
      have := rhe_le (z * 2 ^ s)
      linarith
    have h2 : (0 : ℚ) < (rhe (z * 2 ^ s) : ℚ) := by
      have := rhe_ge (z * 2 ^ s)
      have hp1 : (1 : ℚ) ≤ 2 ^ ((p : ℤ) - 1) := by
        apply one_le_zpow₀ (by norm_num : (1:ℚ) ≤ 2)
        omega
      linarith
    have hcast : (2 : ℚ) ^ (p : ℤ) = (((2 ^ p : ℤ) : ℤ) : ℚ) := by
      push_cast
      rw [zpow_natCast]
    rw [abs_of_pos (by exact_mod_cast h2 : (0:ℤ) < rhe (z * 2 ^ s))]
    have : (rhe (z * 2 ^ s) : ℚ) < ((2 ^ p : ℤ) : ℚ) + 1 := by
      rw [← hcast]
      linarith
    have := (by exact_mod_cast this : rhe (z * 2 ^ s) < 2 ^ p + 1)
    omega
  rcases lt_trichotomy x 0 with hneg | h0 | hpos
  · have := key (-x) (by linarith)
    rw [roundPrec_neg] at this
    have := FRep_neg p _ this
    rwa [neg_neg] at this
  · exact absurd h0 hx
  · exact key x hpos

/-! ### Lemmas about truncation toward zero -/

theorem trunc_intCast (n : ℤ) : trunc ((n : ℤ) : ℚ) = n := by
  unfold trunc
  split_ifs <;> simp

theorem trunc_mono {x y : ℚ} (h : x ≤ y) : trunc x ≤ trunc y := by
  unfold trunc
  split_ifs with hx hy hy
  · exact Int.floor_mono h
  · linarith
  · calc ⌈x⌉ ≤ 0 := Int.ceil_le.mpr (by push_cast; linarith)
      _ ≤ ⌊y⌋ := Int.le_floor.mpr (by exact_mod_cast hy)
  · exact Int.ceil_mono h

theorem trunc_add_two (x : ℚ) : trunc (x + 2) ≤ trunc x + 2 := by
  unfold trunc
  split_ifs with h1 h2 h2
  · rw [show (x + 2 : ℚ) = x + (2 : ℤ) from by push_cast; ring, Int.floor_add_int]
  · calc ⌊x + 2⌋ = ⌊x⌋ + 2 := by
          rw [show (x + 2 : ℚ) = x + (2 : ℤ) from by push_cast; ring, Int.floor_add_int]
      _ ≤ ⌈x⌉ + 2 := by
          have := Int.floor_le_ceil x
          omega
  · linarith
  · rw [show (x + 2 : ℚ) = x + (2 : ℤ) from by push_cast; ring, Int.ceil_add_int]

theorem trunc_dist_le_two {a b : ℚ} (h : |a - b| < 1) :
    trunc (2 * a) ≤ trunc (2 * b) + 2 ∧ trunc (2 * b) ≤ trunc (2 * a) + 2 := by
  rw [abs_lt] at h
  constructor
  · calc trunc (2 * a) ≤ trunc (2 * b + 2) := trunc_mono (by linarith)
      _ ≤ trunc (2 * b) + 2 := trunc_add_two _
  · calc trunc (2 * b) ≤ trunc (2 * a + 2) := trunc_mono (by linarith)
      _ ≤ trunc (2 * a) + 2 := trunc_add_two _

theorem trunc_le_of_le {x : ℚ} {n : ℤ} (h : x ≤ (n : ℚ)) : trunc x ≤ n := by
  calc trunc x ≤ trunc ((n : ℤ) : ℚ) := trunc_mono h
    _ = n := trunc_intCast n

theorem le_trunc_of_le {x : ℚ} {n : ℤ} (h : (n : ℚ) ≤ x) : n ≤ trunc x := by
  calc n = trunc ((n : ℤ) : ℚ) := (trunc_intCast n).symm
    _ ≤ trunc x := trunc_mono h

/-! ### The sub-cell index of representable values -/

theorem div_half (x : ℚ) : x / (1 / 2) = 2 * x := by ring

theorem FRep_two_mul (x : ℚ) (h : FRep 24 x) : FRep 24 (2 * x) := by
  have := FRep_mul_zpow 24 x 1 h
  rwa [show x * (2 : ℚ) ^ (1 : ℤ) = 2 * x from by
    rw [zpow_one]; ring] at this

theorem subCell_eq (x : ℚ) (h : FRep 24 x) : subCell x = trunc (2 * x) := by
  unfold subCell
  rw [div_half]
  have h2 : FRep 24 (2 * x) := FRep_two_mul x h
  rw [show r32 (2 * x) = roundPrec 24 (2 * x) from rfl,
    FRep_roundPrec_eq 24 (by norm_num) _ h2]

theorem subCell_dist_le_two {a b : ℚ} (ha : FRep 24 a) (hb : FRep 24 b)
    (h : |a - b| < 1) : subCell a ≤ subCell b + 2 ∧ subCell b ≤ subCell a + 2 := by
  rw [subCell_eq a ha, subCell_eq b hb]
  exact trunc_dist_le_two h

/-! ### The SSI1 minimum-distance invariant -/

theorem ssi1Jitter_FRep (seed : ℕ) (ix : ℤ) (t : ℕ) : FRep 24 (ssi1Jitter seed ix t) :=
  roundPrec_FRep 24 (by norm_num) _

theorem grid1IsValid_far (g : Grid1) (pts : List ℚ) (x : ℚ)
    (hv : grid1IsValid g x = true) (hinv : grid1Inv g pts) (hx : FRep 24 x) :
    ∀ p ∈ pts, 1 ≤ |x - p| := by
  intro p hp
  by_contra hlt
  push_neg at hlt
  obtain ⟨hrep, hge, hlt2, hmem⟩ := hinv p hp
  obtain ⟨hd1, hd2⟩ := subCell_dist_le_two hx hrep hlt
  simp only [grid1IsValid] at hv
  split_ifs at hv with hrange
  push_neg at hrange
  rw [List.all_eq_true] at hv
  have hdmem : subCell p + g.offset - (subCell x + g.offset) ∈ ([-2, -1, 0, 1, 2] : List ℤ) := by
    simp only [List.mem_cons, List.mem_singleton, List.not_mem_nil, or_false]
    omega
  have hcheck := hv _ hdmem
  simp only [Bool.not_eq_eq_eq_not, Bool.not_true, Bool.and_eq_false_iff,
    decide_eq_false_iff_not, not_le, not_lt] at hcheck
  have hidx : subCell x + g.offset + (subCell p + g.offset - (subCell x + g.offset))
      = subCell p + g.offset := by ring
  rw [hidx] at hcheck
  rcases hcheck with h | h
  · rcases h with h | h
    · omega
    · omega
  · rw [List.contains, List.elem_eq_mem, decide_eq_false_iff_not] at h
    exact h hmem

theorem grid1Set_occ_mono (g : Grid1) (x : ℚ) (k : ℤ) (h : k ∈ g.occ) :
    k ∈ (grid1Set g x).occ := by
  simp only [grid1Set]
  split_ifs <;> simp [h]

theorem grid1Set_size (g : Grid1) (x : ℚ) : (grid1Set g x).size = g.size := by
  simp only [grid1Set]
  split_ifs <;> rfl

theorem grid1Set_offset (g : Grid1) (x : ℚ) : (grid1Set g x).offset = g.offset := by
  simp only [grid1Set]
  split_ifs <;> rfl

theorem grid1Set_mem_self (g : Grid1) (x : ℚ)
    (h1 : 0 ≤ subCell x + g.offset) (h2 : subCell x + g.offset < g.size) :
    (subCell x + g.offset) % 2 ^ 32 ∈ (grid1Set g x).occ := by
  simp only [grid1Set]
  rw [if_pos ⟨h1, h2⟩]
  simp

theorem grid1IsValid_range (g : Grid1) (x : ℚ) (hv : grid1IsValid g x = true) :
    0 ≤ subCell x + g.offset ∧ subCell x + g.offset < g.size := by
  simp only [grid1IsValid] at hv
  split_ifs at hv with hrange
  push_neg at hrange
  exact hrange

theorem grid1Inv_insert (g : Grid1) (pts : List ℚ) (x : ℚ)
    (hinv : grid1Inv g pts) (hv : grid1IsValid g x = true) (hx : FRep 24 x) :
    grid1Inv (grid1Set g x) (pts ++ [x]) := by
  intro p hp
  rw [List.mem_append] at hp
  rcases hp with hp | hp
  · obtain ⟨hrep, h1, h2, h3⟩ := hinv p hp
    exact ⟨hrep, by rwa [grid1Set_offset], by rwa [grid1Set_offset, grid1Set_size],
      by rw [grid1Set_offset]; exact grid1Set_occ_mono g x _ h3⟩
  · rw [List.mem_singleton] at hp
    subst hp
    obtain ⟨h1, h2⟩ := grid1IsValid_range g p hv
    exact ⟨hx, by rwa [grid1Set_offset], by rwa [grid1Set_offset, grid1Set_size],
      by rw [grid1Set_offset]; exact grid1Set_mem_self g p h1 h2⟩

theorem tryCell1_spec (seed : ℕ) (ix : ℤ) (g : Grid1) (ts : List ℕ) :
    (tryCell1 seed ix g ts = (g, none)) ∨
    ∃ x, tryCell1 seed ix g ts = (grid1Set g x, some x) ∧
      grid1IsValid g x = true ∧ FRep 24 x := by
  induction ts with
  | nil => left; rfl
  | cons t ts ih =>
      cases hv : grid1IsValid g (ssi1Jitter seed ix t) with
      | true =>
          right
          refine ⟨ssi1Jitter seed ix t, ?_, hv, ssi1Jitter_FRep seed ix t⟩
          simp [tryCell1, hv]
      | false =>
          have heq : tryCell1 seed ix g (t :: ts) = tryCell1 seed ix g ts := by
            simp [tryCell1, hv]
          rw [heq]
          exact ih

theorem ssi1Run_nil_eq (seed : ℕ) (g : Grid1) : ssi1Run seed [] g = [] := rfl

theorem ssi1Run_cons_eq (seed : ℕ) (ix : ℤ) (rest : List ℤ) (g : Grid1) :
    ssi1Run seed (ix :: rest) g =
      match tryCell1 seed ix g [0, 1, 2] with
      | (g2, some x) => x :: ssi1Run seed rest g2
      | (g2, none) => ssi1Run seed rest g2 := rfl

theorem ssi1Run_pairwise (seed : ℕ) (cells : List ℤ) :
    ∀ (g : Grid1) (past : List ℚ), grid1Inv g past →
      List.Pairwise dist1ok past → (∀ p ∈ past, ∀ q ∈ ssi1Run seed cells g, dist1ok p q) ∧
      List.Pairwise dist1ok (ssi1Run seed cells g) ∧
      ∀ q ∈ ssi1Run seed cells g, FRep 24 q := by
  induction cells with
  | nil => intro g past hinv hpw; rw [ssi1Run_nil_eq]; simp
  | cons ix rest ih =>
      intro g past hinv hpw
      rcases tryCell1_spec seed ix g [0, 1, 2] with hnone | ⟨x, heq, hv, hrep⟩
      · have hrun : ssi1Run seed (ix :: rest) g = ssi1Run seed rest g := by
          rw [ssi1Run_cons_eq, hnone]
        rw [hrun]
        exact ih g past hinv hpw
      · have hrun : ssi1Run seed (ix :: rest) g = x :: ssi1Run seed rest (grid1Set g x) := by
          rw [ssi1Run_cons_eq, heq]
        have hfar : ∀ p ∈ past, 1 ≤ |x - p| := grid1IsValid_far g past x hv hinv hrep
        have hinv2 : grid1Inv (grid1Set g x) (past ++ [x]) := grid1Inv_insert g past x hinv hv hrep
        have hpw2 : List.Pairwise dist1ok (past ++ [x]) := by
          rw [List.pairwise_append]
          refine ⟨hpw, List.pairwise_singleton _ _, ?_⟩
          intro p hp y hy
          rw [List.mem_singleton] at hy
          subst hy
          unfold dist1ok
          rw [abs_sub_comm]
          exact hfar p hp
        obtain ⟨hcross, hpw3, hreps⟩ := ih (grid1Set g x) (past ++ [x]) hinv2 hpw2
        rw [hrun]
        refine ⟨?_, ?_, ?_⟩
        · intro p hp q hq
          rcases List.mem_cons.mp hq with rfl | hq2
          · unfold dist1ok
            rw [abs_sub_comm]
            exact hfar p hp
          · exact hcross p (by simp [hp]) q hq2
        · rw [List.pairwise_cons]
          refine ⟨?_, hpw3⟩
          intro q hq
          exact hcross x (by simp) q hq
        · intro q hq
          rcases List.mem_cons.mp hq with rfl | hq2
          · exact hrep
          · exact hreps q hq2

/-! ### The SSI2 minimum-distance invariant -/

theorem ssi2Jitter_FRep (seed : ℕ) (ix iy : ℤ) (t : ℕ) :
    FRep 24 (ssi2Jitter seed ix iy t).1 ∧ FRep 24 (ssi2Jitter seed ix iy t).2 :=
  ⟨roundPrec_FRep 24 (by norm_num) _, roundPrec_FRep 24 (by norm_num) _⟩

theorem sq_lt_one_of_sum {a b : ℚ} (h : a ^ 2 + b ^ 2 < 1) : |a| < 1 ∧ |b| < 1 := by
  have ha2 : a ^ 2 < 1 := by nlinarith [sq_nonneg b]
  have hb2 : b ^ 2 < 1 := by nlinarith [sq_nonneg a]
  constructor
  · nlinarith [abs_nonneg a, sq_abs a]
  · nlinarith [abs_nonneg b, sq_abs b]

theorem grid2IsValid_far (g : Grid2) (pts : List (ℚ × ℚ)) (x y : ℚ)
    (hv : grid2IsValid g x y = true) (hinv : grid2Inv g pts)
    (hx : FRep 24 x) (hy : FRep 24 y) :
    ∀ p ∈ pts, 1 ≤ (x - p.1) ^ 2 + (y - p.2) ^ 2 := by
  intro p hp
  by_contra hlt
  push_neg at hlt
  obtain ⟨hrep1, hrep2, hge1, hlt1, hge2, hlt2, hmem⟩ := hinv p hp
  obtain ⟨hax, hay⟩ := sq_lt_one_of_sum hlt
  obtain ⟨hdx1, hdx2⟩ := subCell_dist_le_two hx hrep1 hax
  obtain ⟨hdy1, hdy2⟩ := subCell_dist_le_two hy hrep2 hay
  simp only [grid2IsValid] at hv
  split_ifs at hv with hrange
  push_neg at hrange
  simp only [List.all_eq_true] at hv
  have hdxm : subCell p.1 + g.offX - (subCell x + g.offX) ∈ ([-2, -1, 0, 1, 2] : List ℤ) := by
    simp only [List.mem_cons, List.mem_singleton, List.not_mem_nil, or_false]
    omega
  have hdym : subCell p.2 + g.offY - (subCell y + g.offY) ∈ ([-2, -1, 0, 1, 2] : List ℤ) := by
    simp only [List.mem_cons, List.mem_singleton, List.not_mem_nil, or_false]
    omega
  have hcheck := hv _ hdym _ hdxm
  simp only [Bool.not_eq_eq_eq_not, Bool.not_true, Bool.and_eq_false_iff,
    decide_eq_false_iff_not, not_le, not_lt] at hcheck
  have hidx : subCell x + g.offX + (subCell p.1 + g.offX - (subCell x + g.offX))
      = subCell p.1 + g.offX := by ring
  have hidy : subCell y + g.offY + (subCell p.2 + g.offY - (subCell y + g.offY))
      = subCell p.2 + g.offY := by ring
  rw [hidx, hidy] at hcheck
  rcases hcheck with h | h
  · rcases h with h | h
    · rcases h with h | h
      · rcases h with h | h
        · omega
        · omega
      · omega
    · omega
  · rw [List.contains, List.elem_eq_mem, decide_eq_false_iff_not] at h
    exact h hmem

theorem grid2Set_occ_mono (g : Grid2) (x y : ℚ) (k : ℤ) (h : k ∈ g.occ) :
    k ∈ (grid2Set g x y).occ := by
  simp only [grid2Set]
  split_ifs <;> simp [h]

theorem grid2Set_fields (g : Grid2) (x y : ℚ) :
    (grid2Set g x y).w = g.w ∧ (grid2Set g x y).h = g.h ∧
    (grid2Set g x y).offX = g.offX ∧ (grid2Set g x y).offY = g.offY := by
  simp only [grid2Set]
  split_ifs <;> exact ⟨rfl, rfl, rfl, rfl⟩

theorem grid2Set_mem_self (g : Grid2) (x y : ℚ)
    (h1 : 0 ≤ subCell x + g.offX) (h2 : subCell x + g.offX < g.w)
    (h3 : 0 ≤ subCell y + g.offY) (h4 : subCell y + g.offY < g.h) :
    grid2Key g.w (subCell x + g.offX) (subCell y + g.offY) ∈ (grid2Set g x y).occ := by
  simp only [grid2Set]
  rw [if_pos ⟨h1, h2, h3, h4⟩]
  simp

theorem grid2IsValid_range (g : Grid2) (x y : ℚ) (hv : grid2IsValid g x y = true) :
    0 ≤ subCell x + g.offX ∧ subCell x + g.offX < g.w ∧
    0 ≤ subCell y + g.offY ∧ subCell y + g.offY < g.h := by
  simp only [grid2IsValid] at hv
  split_ifs at hv with hrange
  push_neg at hrange
  exact ⟨hrange.1, hrange.2.1, hrange.2.2.1, hrange.2.2.2⟩

theorem grid2Inv_insert (g : Grid2) (pts : List (ℚ × ℚ)) (x y : ℚ)
    (hinv : grid2Inv g pts) (hv : grid2IsValid g x y = true)
    (hx : FRep 24 x) (hy : FRep 24 y) :
    grid2Inv (grid2Set g x y) (pts ++ [(x, y)]) := by
  obtain ⟨hw, hh, hox, hoy⟩ := grid2Set_fields g x y
  intro p hp
  rw [List.mem_append] at hp
  rcases hp with hp | hp
  · obtain ⟨hr1, hr2, h1, h2, h3, h4, h5⟩ := hinv p hp
    rw [hw, hh, hox, hoy]
    exact ⟨hr1, hr2, h1, h2, h3, h4, grid2Set_occ_mono g x y _ h5⟩
  · rw [List.mem_singleton] at hp
    subst hp
    obtain ⟨h1, h2, h3, h4⟩ := grid2IsValid_range g x y hv
    rw [hw, hh, hox, hoy]
    exact ⟨hx, hy, h1, h2, h3, h4, grid2Set_mem_self g x y h1 h2 h3 h4⟩

theorem tryCell2_spec (seed : ℕ) (ix iy : ℤ) (g : Grid2) (ts : List ℕ) :
    (tryCell2 seed ix iy g ts = (g, none)) ∨
    ∃ p : ℚ × ℚ, tryCell2 seed ix iy g ts = (grid2Set g p.1 p.2, some p) ∧
      grid2IsValid g p.1 p.2 = true ∧ FRep 24 p.1 ∧ FRep 24 p.2 := by
  induction ts with
  | nil => left; rfl
  | cons t ts ih =>
      cases hv : grid2IsValid g (ssi2Jitter seed ix iy t).1 (ssi2Jitter seed ix iy t).2 with
      | true =>
          right
          obtain ⟨hr1, hr2⟩ := ssi2Jitter_FRep seed ix iy t
          refine ⟨ssi2Jitter seed ix iy t, ?_, hv, hr1, hr2⟩
          simp [tryCell2, hv]
      | false =>
          have heq : tryCell2 seed ix iy g (t :: ts) = tryCell2 seed ix iy g ts := by
            simp [tryCell2, hv]
          rw [heq]
          exact ih

theorem ssi2Run_nil_eq (seed : ℕ) (g : Grid2) : ssi2Run seed [] g = [] := rfl

theorem ssi2Run_cons_eq (seed : ℕ) (c : ℤ × ℤ) (rest : List (ℤ × ℤ)) (g : Grid2) :
    ssi2Run seed (c :: rest) g =
      match tryCell2 seed c.1 c.2 g [0, 1] with
      | (g2, some p) => p :: ssi2Run seed rest g2
      | (g2, none) => ssi2Run seed rest g2 := rfl

theorem ssi2Run_pairwise (seed : ℕ) (cells : List (ℤ × ℤ)) :
    ∀ (g : Grid2) (past : List (ℚ × ℚ)), grid2Inv g past →
      List.Pairwise dist2ok past →
      (∀ p ∈ past, ∀ q ∈ ssi2Run seed cells g, dist2ok p q) ∧
      List.Pairwise dist2ok (ssi2Run seed cells g) ∧
      ∀ q ∈ ssi2Run seed cells g, FRep 24 q.1 ∧ FRep 24 q.2 := by
  induction cells with
  | nil => intro g past hinv hpw; rw [ssi2Run_nil_eq]; simp
  | cons c rest ih =>
      intro g past hinv hpw
      rcases tryCell2_spec seed c.1 c.2 g [0, 1] with hnone | ⟨p, heq, hv, hr1, hr2⟩
      · have hrun : ssi2Run seed (c :: rest) g = ssi2Run seed rest g := by
          rw [ssi2Run_cons_eq, hnone]
        rw [hrun]
        exact ih g past hinv hpw
      · have hrun : ssi2Run seed (c :: rest) g = p :: ssi2Run seed rest (grid2Set g p.1 p.2) := by
          rw [ssi2Run_cons_eq, heq]
        have hfar : ∀ q ∈ past, 1 ≤ (p.1 - q.1) ^ 2 + (p.2 - q.2) ^ 2 :=
          grid2IsValid_far g past p.1 p.2 hv hinv hr1 hr2
        have hinv2 : grid2Inv (grid2Set g p.1 p.2) (past ++ [(p.1, p.2)]) :=
          grid2Inv_insert g past p.1 p.2 hinv hv hr1 hr2
        have hpp : (p.1, p.2) = p := rfl
        rw [hpp] at hinv2
        have hpw2 : List.Pairwise dist2ok (past ++ [p]) := by
          rw [List.pairwise_append]
          refine ⟨hpw, List.pairwise_singleton _ _, ?_⟩
          intro q hq y hy
          rw [List.mem_singleton] at hy
          subst hy
          unfold dist2ok
          have := hfar q hq
          nlinarith [this]
        obtain ⟨hcross, hpw3, hreps⟩ := ih (grid2Set g p.1 p.2) (past ++ [p]) hinv2 hpw2
        rw [hrun]
        refine ⟨?_, ?_, ?_⟩
        · intro q hq r hr
          rcases List.mem_cons.mp hr with rfl | hr2
          · unfold dist2ok
            have := hfar q hq
            nlinarith [this]
          · exact hcross q (by simp [hq]) r hr2
        · rw [List.pairwise_cons]
          refine ⟨?_, hpw3⟩
          intro q hq
          exact hcross p (by simp) q hq
        · intro q hq
          rcases List.mem_cons.mp hq with rfl | hq2
          · exact ⟨hr1, hr2⟩
          · exact hreps q hq2

theorem pairwise_getD {α : Type} (R : α → α → Prop) (hs : ∀ a b, R a b → R b a)
    (l : List α) (h : List.Pairwise R l) (d : α) :
    ∀ i j : ℕ, i < l.length → j < l.length → i ≠ j → R (l.getD i d) (l.getD j d) := by
  intro i j hi hj hne
  rw [List.getD_eq_getElem?_getD, List.getElem?_eq_getElem hi, Option.getD_some,
    List.getD_eq_getElem?_getD, List.getElem?_eq_getElem hj, Option.getD_some]
  rcases lt_or_gt_of_ne hne with hij | hij
  · exact List.pairwise_iff_getElem.mp h i j hi hj hij
  · exact hs _ _ (List.pairwise_iff_getElem.mp h j i hj hi hij)

theorem ssi1List_pairwise (seed : ℕ) (r1 : ℤ) :
    List.Pairwise dist1ok (ssi1List seed r1) := by
  unfold ssi1List
  split_ifs with h
  · simp
  · exact (ssi1Run_pairwise seed (ssi1Cells r1) (newGrid1 r1) []
      (by intro p hp; simp at hp) (by simp)).2.1

theorem ssi2List_pairwise (seed : ℕ) (r1 r2 : ℤ) :
    List.Pairwise dist2ok (ssi2List seed r1 r2) := by
  unfold ssi2List
  split_ifs with h
  · simp
  · exact (ssi2Run_pairwise seed (ssi2Cells r1 r2) (newGrid2 r1 r2) []
      (by intro p hp; simp at hp) (by simp)).2.1

/-- C1: for every seed and positive radii, any two points emitted at
distinct positions of the same SSI1 run are at least 1.0 apart in absolute
value, and any two points emitted at distinct positions of the same SSI2
run are at least 1.0 apart in Euclidean distance (stated on the squared
distance, which is equivalent): the bitmap-grid neighborhood check over
two sub-cells in each direction at half-unit resolution produces no false
negatives, even though the Go int conversion truncates toward zero. -/
theorem C1_ssi_min_distance :
    (∀ (seed : ℕ) (r1 : ℤ), 0 < r1 →
      ∀ i j : ℕ, i < (ssi1List seed r1).length → j < (ssi1List seed r1).length → i ≠ j →
        1 ≤ |(ssi1List seed r1).getD i 0 - (ssi1List seed r1).getD j 0|) ∧
    (∀ (seed : ℕ) (r1 r2 : ℤ), 0 < r1 → 0 < r2 →
      ∀ i j : ℕ, i < (ssi2List seed r1 r2).length → j < (ssi2List seed r1 r2).length → i ≠ j →
        1 ≤ (((ssi2List seed r1 r2).getD i (0, 0)).1 - ((ssi2List seed r1 r2).getD j (0, 0)).1) ^ 2
          + (((ssi2List seed r1 r2).getD i (0, 0)).2 - ((ssi2List seed r1 r2).getD j (0, 0)).2) ^ 2) := by
  constructor
  · intro seed r1 _ i j hi hj hne
    exact pairwise_getD dist1ok
      (by intro a b hab; unfold dist1ok at *; rwa [abs_sub_comm])
      _ (ssi1List_pairwise seed r1) 0 i j hi hj hne
  · intro seed r1 r2 _ _ i j hi hj hne
    exact pairwise_getD dist2ok
      (by intro a b hab; unfold dist2ok at *; nlinarith [hab])
      _ (ssi2List_pairwise seed r1 r2) (0, 0) i j hi hj hne

/-- Witness for C1: the SSI1 run at seed 42, radius 2 and the SSI2 run at
seed 42, radii 2 and 1 each emit at least two points, and the theorem
applies to their first two emitted points. -/
theorem C1_ssi_min_distance_witness :
    (0 < (2 : ℤ)) ∧ (0 < (1 : ℤ)) ∧
    1 ≤ |(ssi1List 42 2).getD 0 0 - (ssi1List 42 2).getD 1 0| ∧
    1 ≤ (((ssi2List 42 2 1).getD 0 (0, 0)).1 - ((ssi2List 42 2 1).getD 1 (0, 0)).1) ^ 2
      + (((ssi2List 42 2 1).getD 0 (0, 0)).2 - ((ssi2List 42 2 1).getD 1 (0, 0)).2) ^ 2 := by
  refine ⟨by norm_num, by norm_num, ?_, ?_⟩
  · exact C1_ssi_min_distance.1 42 2 (by norm_num) 0 1
      (by with_unfolding_all decide) (by with_unfolding_all decide) (by norm_num)
  · exact C1_ssi_min_distance.2 42 2 1 (by norm_num) (by norm_num) 0 1
      (by with_unfolding_all decide) (by with_unfolding_all decide) (by norm_num)


/-- C2: at seed 42 with the single uint64 coordinate 8853950440294339643
the coordinate hash is 2 to the 64 minus 1, whose float32 and float64
conversions round up to a full power of two, so Float32 and Float64 return
exactly 1.0 (outside the documented right-open unit interval) and White
returns exactly 1.0 (outside the right-open interval from minus one to
one).  This contradicts the doc comments of Float32 and Float64 in
noise.go, which promise values strictly below 1, and refutes the claim for
all three functions. -/
theorem C2_unit_interval_violated :
    (hashCoords 42 [Coord.u64 8853950440294339643]).isSome = true ∧
    (hashCoords 42 [Coord.u64 8853950440294339643]).getD 0 = 2 ^ 64 - 1 ∧
    (Float32q 42 [Coord.u64 8853950440294339643]).getD 0 = 1 ∧
    (Float64q 42 [Coord.u64 8853950440294339643]).getD 0 = 1 ∧
    (Whiteq 42 [Coord.u64 8853950440294339643]).getD 0 = 1 := by
  with_unfolding_all decide

/-! ### C5: the variadic hash -/

theorem hashCoordsGo_eq_fold (cs : List Coord) : ∀ (st i : ℕ),
    hashCoordsGo st i cs = (cs.enumFrom i).foldl
      (fun s p => xxhash64 (coordToUint64 p.2) ((s + p.1 * GOLDEN64) % U64)) st := by
  induction cs with
  | nil => intro st i; rfl
  | cons c rest ih =>
      intro st i
      rw [show List.enumFrom i (c :: rest) = (i, c) :: List.enumFrom (i + 1) rest from rfl]
      rw [List.foldl_cons]
      exact ih _ (i + 1)

/-- C5: the variadic hash equals the fold over the index-enumerated
coordinate list, starting from the seed widened to 64 bits and combining
each coordinate at position i through the mix of its encoding with the
state offset by i times the 64-bit golden-ratio constant; the call with an
empty coordinate list fails. -/
theorem C5_hash_coords_fold :
    (∀ seed : ℕ, hashCoords seed [] = none) ∧
    (∀ (seed : ℕ) (c : Coord) (cs : List Coord),
      hashCoords seed (c :: cs) = some (hashFoldSpec seed (c :: cs))) := by
  constructor
  · intro seed
    rfl
  · intro seed c cs
    unfold hashCoords hashFoldSpec
    rw [if_neg (by simp)]
    rw [show (c :: cs).enum = List.enumFrom 0 (c :: cs) from rfl]
    rw [hashCoordsGo_eq_fold]

/-! ### C8: bounded integers -/

/-- C8: IntN fails exactly when the bound is nonpositive and UintN exactly
when the bound is zero; for a positive bound the result is the hash of the
coordinates reduced modulo the bound, hence in the right-open range from
zero to the bound. -/
theorem C8_bounded_ints :
    (∀ (seed : ℕ) (n : ℤ) (c : Coord) (cs : List Coord),
      (IntNq seed n (c :: cs) = none ↔ n ≤ 0) ∧
      (0 < n →
        IntNq seed n (c :: cs) = some ((hashFoldSpec seed (c :: cs) % n.toNat : ℕ) : ℤ) ∧
        ∀ v, IntNq seed n (c :: cs) = some v → 0 ≤ v ∧ v < n)) ∧
    (∀ (seed n : ℕ) (c : Coord) (cs : List Coord),
      (UintNq seed n (c :: cs) = none ↔ n = 0) ∧
      (0 < n →
        UintNq seed n (c :: cs) = some (hashFoldSpec seed (c :: cs) % n) ∧
        ∀ v, UintNq seed n (c :: cs) = some v → v < n)) := by
  have hsome : ∀ (seed : ℕ) (c : Coord) (cs : List Coord),
      hashCoords seed (c :: cs) = some (hashFoldSpec seed (c :: cs)) := by
    intro seed c cs
    unfold hashCoords hashFoldSpec
    rw [if_neg (by simp)]
    rw [show (c :: cs).enum = List.enumFrom 0 (c :: cs) from rfl]
    rw [hashCoordsGo_eq_fold]
  constructor
  · intro seed n c cs
    constructor
    · unfold IntNq
      split_ifs with h
      · simp [h]
      · rw [hsome]
        simp [h]
    · intro hn
      have hn' : ¬ n ≤ 0 := by omega
      constructor
      · unfold IntNq
        rw [if_neg hn', hsome]
        rfl
      · intro v hv
        unfold IntNq at hv
        rw [if_neg hn', hsome] at hv
        simp only [Option.map_some', Option.some.injEq] at hv
        subst hv
        have htn : 0 < n.toNat := by omega
        have hmod : hashFoldSpec seed (c :: cs) % n.toNat < n.toNat := Nat.mod_lt _ htn
        constructor
        · positivity
        · have : ((hashFoldSpec seed (c :: cs) % n.toNat : ℕ) : ℤ) < (n.toNat : ℤ) := by
            exact_mod_cast hmod
          rwa [Int.toNat_of_nonneg (by omega)] at this
  · intro seed n c cs
    constructor
    · unfold UintNq
      split_ifs with h
      · simp [h]
      · rw [hsome]
        simp [h]
    · intro hn
      have hn' : ¬ n = 0 := by omega
      constructor
      · unfold UintNq
        rw [if_neg hn', hsome]
        rfl
      · intro v hv
        unfold UintNq at hv
        rw [if_neg hn', hsome] at hv
        simp only [Option.map_some', Option.some.injEq] at hv
        subst hv
        exact Nat.mod_lt _ hn

/-- Witness for C8: at seed 42 with the single uint64 coordinate 12345,
the bound 0 fails for both families and the bound 10 yields the hash
modulo 10, inside the range. -/
theorem C8_bounded_ints_witness :
    (0 : ℤ) < 10 ∧ (0 : ℕ) < 10 ∧
    IntNq 42 0 [Coord.u64 12345] = none ∧
    IntNq 42 10 [Coord.u64 12345]
      = some ((hashFoldSpec 42 [Coord.u64 12345] % (10 : ℤ).toNat : ℕ) : ℤ) ∧
    UintNq 42 0 [Coord.u64 12345] = none ∧
    UintNq 42 10 [Coord.u64 12345] = some (hashFoldSpec 42 [Coord.u64 12345] % 10) := by
  refine ⟨by norm_num, by norm_num, ?_, ?_, ?_, ?_⟩
  · exact (C8_bounded_ints.1 42 0 (Coord.u64 12345) []).1.mpr (by norm_num)
  · exact ((C8_bounded_ints.1 42 10 (Coord.u64 12345) []).2 (by norm_num)).1
  · exact (C8_bounded_ints.2 42 0 (Coord.u64 12345) []).1.mpr rfl
  · exact ((C8_bounded_ints.2 42 10 (Coord.u64 12345) []).2 (by norm_num)).1

/-! ### C6: Norm64 first uniform -/

theorem hashCoords_cons (seed : ℕ) (c : Coord) (cs : List Coord) :
    hashCoords seed (c :: cs) = some (hashFoldSpec seed (c :: cs)) := by
  unfold hashCoords hashFoldSpec
  rw [if_neg (by simp)]
  rw [show (c :: cs).enum = List.enumFrom 0 (c :: cs) from rfl]
  rw [hashCoordsGo_eq_fold]

/-- C6 (amended): Norm64 computes its first uniform as the full 64-bit
hash converted to float64 and divided by 2 to the 64, with no replacement
of zero: the value is exactly zero precisely when the finished hash is
zero, so a zero hash reaches the logarithm unguarded. -/
theorem C6_norm_u1_no_guard :
    ∀ (seed : ℕ) (c : Coord) (cs : List Coord),
      norm64u1 seed (c :: cs) = some (float64OfHash (hashFoldSpec seed (c :: cs))) ∧
      (float64OfHash (hashFoldSpec seed (c :: cs)) = 0 ↔ hashFoldSpec seed (c :: cs) = 0) := by
  intro seed c cs
  constructor
  · unfold norm64u1
    rw [hashCoords_cons]
    rfl
  · set h := hashFoldSpec seed (c :: cs) with hh
    constructor
    · intro hz
      by_contra hne
      have hpos : (0 : ℚ) < (h : ℚ) := by
        have : 1 ≤ h := Nat.one_le_iff_ne_zero.mpr hne
        exact_mod_cast Nat.lt_of_lt_of_le Nat.zero_lt_one this
      have h1 : 0 < r64 ((h : ℚ)) := roundPrec_pos 53 _ hpos (by norm_num)
      have h2 : 0 < r64 ((h : ℚ)) / 2 ^ 64 := by positivity
      have h3 : 0 < float64OfHash h := by
        unfold float64OfHash
        exact roundPrec_pos 53 _ h2 (by norm_num)
      rw [hz] at h3
      exact lt_irrefl 0 h3
    · intro hz
      unfold float64OfHash r64
      rw [hz]
      push_cast
      rw [roundPrec_zero, zero_div, roundPrec_zero]

/-- Counterexample for C6: at seed 42 the single uint64 coordinate
15281702476995712129 makes the finished hash exactly zero, so the first
uniform of Norm64 is exactly 0.0 rather than a smallest positive step. -/
theorem C6_norm_u1_counterexample :
    (hashCoords 42 [Coord.u64 15281702476995712129]).isSome = true ∧
    (hashCoords 42 [Coord.u64 15281702476995712129]).getD 1 = 0 ∧
    (norm64u1 42 [Coord.u64 15281702476995712129]).isSome = true ∧
    (norm64u1 42 [Coord.u64 15281702476995712129]).getD 1 = 0 := by
  with_unfolding_all decide

/-! ### C9: gradient tables -/

/-- C9 (amended): the per-instance 3D gradient table built by NewSimplex
draws every entry from the 12 canonical 3D directions, and every 2D
gradient table entry, shared or per-instance, is one of the 12 decoded 2D
directions; but the shared 3D table built at startup pairs the 2D
directions with a zero third component instead of using the canonical 3D
directions. -/
theorem C9_gradient_tables :
    (∀ (P : ℕ → ℕ) (i : ℕ), instGrad3 P i ∈ g3dList) ∧
    (∀ (P : ℕ → ℕ) (i : ℕ), instGrad2 P i ∈ g2dDirections) ∧
    (∀ i : ℕ, sharedGrad2 i ∈ g2dDirections) ∧
    (∀ i : ℕ, sharedGrad3 i ∈ g2dDirections.map (fun gv => (gv.1, gv.2, (0 : ℤ)))) := by
  refine ⟨?_, ?_, ?_, ?_⟩
  · intro P i
    have h : instPerm P i % 12 < 12 := Nat.mod_lt _ (by norm_num)
    unfold instGrad3
    revert h
    generalize instPerm P i % 12 = k
    intro h
    interval_cases k <;> decide
  · intro P i
    have h : instPerm P i % 12 < 12 := Nat.mod_lt _ (by norm_num)
    unfold instGrad2
    revert h
    generalize instPerm P i % 12 = k
    intro h
    interval_cases k <;> decide
  · intro i
    have h : sharedPerm i % 12 < 12 := Nat.mod_lt _ (by norm_num)
    unfold sharedGrad2
    revert h
    generalize sharedPerm i % 12 = k
    intro h
    interval_cases k <;> decide
  · intro i
    have h : sharedPerm i % 12 < 12 := Nat.mod_lt _ (by norm_num)
    unfold sharedGrad3 sharedGrad2
    revert h
    generalize sharedPerm i % 12 = k
    intro h
    interval_cases k <;> decide

/-- Counterexample for C9: entry 0 of the startup-built shared 3D
gradient table is the direction (-1, 0, 0), which is none of the 12
canonical 3D gradient directions. -/
theorem C9_shared_grad3_counterexample :
    sharedGrad3 0 = (-1, 0, 0) ∧ sharedGrad3 0 ∉ g3dList := by
  constructor
  · decide
  · decide

/-! ### C3: octave seeds -/

theorem r32_FRep (x : ℚ) : FRep 24 (r32 x) :=
  roundPrec_FRep 24 (by norm_num) x

theorem r32_FRep_eq (x : ℚ) (h : FRep 24 x) : r32 x = x :=
  FRep_roundPrec_eq 24 (by norm_num) x h

theorem noise2core_FRep (perm : ℕ → ℕ) (grad : ℕ → ℤ × ℤ) (si : ℕ) (x y : ℚ) :
    FRep 24 (noise2core perm grad si x y) := by
  simp only [noise2core, r32]
  exact roundPrec_FRep 24 (by norm_num) _

theorem fbmEvalLoop_zero_eq (P : ℕ → ℕ) (coords : List ℚ) (lac gain : ℚ) :
    fbmEvalLoop P coords lac gain 0 = some (0, 1, 1, 0) := rfl

theorem fbmEvalLoop_succ_eq (P : ℕ → ℕ) (coords : List ℚ) (lac gain : ℚ) (n : ℕ) :
    fbmEvalLoop P coords lac gain (n + 1)
      = match fbmEvalLoop P coords lac gain n with
        | none => none
        | some st =>
            match simplexEval P (coords.map fun c => r32 (c * st.2.2.1)) with
            | none => none
            | some v =>
                some (r32 (st.1 + r32 (st.2.1 * v)), r32 (st.2.1 * gain),
                  r32 (st.2.2.1 * lac), r32 (st.2.2.2 + st.2.1)) := rfl

theorem fbmEvalLoop_succ_of (P : ℕ → ℕ) (coords : List ℚ) (lac gain : ℚ) (n : ℕ)
    (st : ℚ × ℚ × ℚ × ℚ) (v : ℚ)
    (h : fbmEvalLoop P coords lac gain n = some st)
    (hv : simplexEval P (coords.map fun c => r32 (c * st.2.2.1)) = some v) :
    fbmEvalLoop P coords lac gain (n + 1)
      = some (r32 (st.1 + r32 (st.2.1 * v)), r32 (st.2.1 * gain),
          r32 (st.2.2.1 * lac), r32 (st.2.2.2 + st.2.1)) := by
  rw [fbmEvalLoop_succ_eq, h]
  simp only [hv]

/-- C3 (amended): in FBM2 every octave o evaluates the package noise with
the seed offset by o times the 32-bit golden constant in wrapping uint32
arithmetic, but the FBM Eval method applies no per-octave seed offset: its
octaves reuse the same fixed instance tables, so with lacunarity 1 and
gain 1 evaluating two octaves gives the same result as one. -/
theorem C3_octave_seed_offsets :
    (∀ (x y lac gain : ℚ) (seed n : ℕ),
      fbm2Go x y seed lac gain n
        = fbm2With (fun o xx yy => noise2 xx yy (fbmOctSeed seed o)) x y lac gain n) ∧
    (∀ (P : ℕ → ℕ) (x : ℚ), fbmEval P [2, 1, 1, x] = fbmEval P [1, 1, 1, x]) := by
  constructor
  · intro x y lac gain seed n
    induction n with
    | zero => rfl
    | succ o ih => simp only [fbm2Go, fbm2With, ih]
  · intro P x
    have hv : FRep 24 (simplexNoise2D P (r32 (x * 1)) 0) := by
      unfold simplexNoise2D
      exact noise2core_FRep _ _ _ _ _
    set v := simplexNoise2D P (r32 (x * 1)) 0 with hvdef
    have hrv : r32 v = v := r32_FRep_eq v hv
    have h1 : r32 (1 : ℚ) = 1 := by with_unfolding_all decide
    have h2 : r32 ((1 : ℚ) + 1) = 2 := by with_unfolding_all decide
    have hse : simplexEval P ([x].map fun c => r32 (c * 1)) = some v := by
      simp only [List.map, simplexEval, hvdef]
    have hl1 : fbmEvalLoop P [x] 1 1 1 = some (v, 1, 1, 1) := by
      have := fbmEvalLoop_succ_of P [x] 1 1 0 (0, 1, 1, 0) v
        (fbmEvalLoop_zero_eq P [x] 1 1) hse
      rw [show (0 : ℕ) + 1 = 1 from rfl] at this
      rw [this]
      simp only [one_mul, zero_add, hrv, h1]
    have hl2 : fbmEvalLoop P [x] 1 1 2 = some (r32 (v + v), 1, 1, 2) := by
      have := fbmEvalLoop_succ_of P [x] 1 1 1 (v, 1, 1, 1) v hl1 hse
      rw [show (1 : ℕ) + 1 = 2 from rfl] at this
      rw [this]
      simp only [one_mul, hrv, h1, h2]
    have hvv : r32 (v + v) = 2 * v := by
      rw [show v + v = 2 * v from by ring]
      exact r32_FRep_eq _ (FRep_two_mul v hv)
    have ht1 : trunc (1 : ℚ) = 1 := by norm_num [trunc]
    have ht2 : trunc (2 : ℚ) = 2 := by norm_num [trunc]
    have e1 : fbmEval P [1, 1, 1, x] = some v := by
      unfold fbmEval
      rw [if_neg (by norm_num)]
      simp only [List.getD_cons_zero, List.getD_cons_succ, List.drop_succ_cons,
        List.drop_zero, ht1]
      rw [if_neg (by norm_num)]
      rw [show (1 : ℤ).toNat = 1 from rfl, hl1]
      simp only []
      rw [if_pos (by norm_num), div_one, hrv]
    have e2 : fbmEval P [2, 1, 1, x] = some v := by
      unfold fbmEval
      rw [if_neg (by norm_num)]
      simp only [List.getD_cons_zero, List.getD_cons_succ, List.drop_succ_cons,
        List.drop_zero, ht2]
      rw [if_neg (by norm_num)]
      rw [show (2 : ℤ).toNat = 2 from rfl, hl2]
      simp only []
      rw [if_pos (by norm_num), hvv]
      rw [show (2 : ℚ) * v / 2 = v from by ring, hrv]
    rw [e1, e2]

/-- Counterexample for C3: with the constant-zero instance permutation,
FBM Eval at lacunarity 1 and gain 1 returns the same value for two octaves
as for one, so its octaves are exact copies; the package-level FBM2 at the
same parameters does distinguish the octave count, because it alone
offsets the seed per octave. -/
theorem C3_eval_octaves_copies :
    fbmEval (fun _ => 0) [2, 1, 1, 1 / 2] = fbmEval (fun _ => 0) [1, 1, 1, 1 / 2] ∧
    FBM2q (1 / 2) 0 2 1 1 42 ≠ FBM2q (1 / 2) 0 1 1 1 42 := by
  constructor
  · have ha : (fbmEval (fun _ => 0) [2, 1, 1, 1 / 2]).isSome = true := by
      with_unfolding_all decide
    have hb : (fbmEval (fun _ => 0) [1, 1, 1, 1 / 2]).isSome = true := by
      with_unfolding_all decide
    have hsub : (fbmEval (fun _ => 0) [2, 1, 1, 1 / 2]).getD 9
        - (fbmEval (fun _ => 0) [1, 1, 1, 1 / 2]).getD 9 = 0 := by
      with_unfolding_all decide
    obtain ⟨a, ha2⟩ := Option.isSome_iff_exists.mp ha
    obtain ⟨b, hb2⟩ := Option.isSome_iff_exists.mp hb
    rw [ha2, hb2] at hsub ⊢
    simp only [Option.getD_some] at hsub
    rw [sub_eq_zero] at hsub
    rw [hsub]
  · with_unfolding_all decide

/-! ### C4: fBM normalization -/

theorem r32_mono {a b : ℚ} (h : a ≤ b) : r32 a ≤ r32 b :=
  roundPrec_mono 24 (by norm_num) h

theorem r32_one : r32 (1 : ℚ) = 1 := by with_unfolding_all decide

theorem fbm2Go_tot (x y : ℚ) (seed : ℕ) (lac gain : ℚ) (hg : 0 ≤ gain) :
    ∀ n : ℕ, 0 ≤ (fbm2Go x y seed lac gain n).2.1 ∧
      (1 ≤ n → 1 ≤ (fbm2Go x y seed lac gain n).2.2.2) := by
  intro n
  induction n with
  | zero => exact ⟨by norm_num [fbm2Go], by omega⟩
  | succ o ih =>
      obtain ⟨hamp, htot⟩ := ih
      constructor
      · show 0 ≤ r32 _
        exact roundPrec_nonneg 24 _ (mul_nonneg hamp hg) (by norm_num)
      · intro _
        show 1 ≤ r32 ((fbm2Go x y seed lac gain o).2.2.2 + (fbm2Go x y seed lac gain o).2.1)
        rcases Nat.eq_zero_or_pos o with rfl | hpos
        · rw [show (fbm2Go x y seed lac gain 0).2.2.2 + (fbm2Go x y seed lac gain 0).2.1
            = 1 from by norm_num [fbm2Go]]
          rw [r32_one]
        · have h1 : (1 : ℚ) ≤ (fbm2Go x y seed lac gain o).2.2.2 + (fbm2Go x y seed lac gain o).2.1 := by
            have := htot hpos
            linarith
          calc (1 : ℚ) = r32 1 := r32_one.symm
            _ ≤ _ := r32_mono h1

theorem simplexEval_isSome (P : ℕ → ℕ) (l : List ℚ)
    (h : l.length = 1 ∨ l.length = 2 ∨ l.length = 3) : ∃ v, simplexEval P l = some v := by
  rcases l with _ | ⟨a, _ | ⟨b, _ | ⟨c, _ | ⟨d, t⟩⟩⟩⟩
  · simp at h
  · exact ⟨_, rfl⟩
  · exact ⟨_, rfl⟩
  · exact ⟨_, rfl⟩
  · simp only [List.length_cons] at h
    omega

theorem fbmEvalLoop_tot (P : ℕ → ℕ) (cs : List ℚ) (lac gain : ℚ) (hg : 0 ≤ gain)
    (hlen : cs.length = 1 ∨ cs.length = 2 ∨ cs.length = 3) :
    ∀ n : ℕ, ∃ st, fbmEvalLoop P cs lac gain n = some st ∧ 0 ≤ st.2.1 ∧
      (1 ≤ n → 1 ≤ st.2.2.2) := by
  intro n
  induction n with
  | zero => exact ⟨(0, 1, 1, 0), rfl, by norm_num, by omega⟩
  | succ o ih =>
      obtain ⟨st, hst, hamp, htot⟩ := ih
      have hmlen : (cs.map fun c => r32 (c * st.2.2.1)).length = 1 ∨
          (cs.map fun c => r32 (c * st.2.2.1)).length = 2 ∨
          (cs.map fun c => r32 (c * st.2.2.1)).length = 3 := by
        simpa [List.length_map] using hlen
      obtain ⟨v, hv⟩ := simplexEval_isSome P _ hmlen
      refine ⟨_, fbmEvalLoop_succ_of P cs lac gain o st v hst hv, ?_, ?_⟩
      · exact roundPrec_nonneg 24 _ (mul_nonneg hamp hg) (by norm_num)
      · intro _
        show 1 ≤ r32 (st.2.2.2 + st.2.1)
        rcases Nat.eq_zero_or_pos o with rfl | hpos
        · rw [fbmEvalLoop_zero_eq] at hst
          have hst2 : st = (0, 1, 1, 0) := by
            exact (Option.some.injEq _ _).mp hst.symm
          rw [hst2]
          norm_num [r32_one]
        · have h1 : (1 : ℚ) ≤ st.2.2.2 + st.2.1 := by
            have := htot hpos
            linarith
          calc (1 : ℚ) = r32 1 := r32_one.symm
            _ ≤ _ := r32_mono h1

/-- C4 (amended): fBM with octaves at most 0 returns exactly 0 in both
FBM2 and the FBM Eval method. When octaves is positive AND the gain is
nonnegative, the accumulated total amplitude (starting at amplitude 1 and
multiplying by the gain each octave) is at least 1, hence positive, and
the result is the float32 quotient of the accumulated sum by the total
amplitude; for negative gain the total amplitude can vanish (see the
counterexample), in which case 0 is returned instead. -/
theorem C4_fbm_normalization :
    (∀ (x y lac gain : ℚ) (seed : ℕ) (oct : ℤ), oct ≤ 0 →
      FBM2q x y oct lac gain seed = 0) ∧
    (∀ (P : ℕ → ℕ) (o lac gain : ℚ) (cs : List ℚ), cs ≠ [] → trunc o ≤ 0 →
      fbmEval P (o :: lac :: gain :: cs) = some 0) ∧
    (∀ (x y lac gain : ℚ) (seed : ℕ) (oct : ℤ), 0 < oct → 0 ≤ gain →
      1 ≤ (fbm2Go x y seed lac gain oct.toNat).2.2.2 ∧
      FBM2q x y oct lac gain seed
        = r32 ((fbm2Go x y seed lac gain oct.toNat).1
            / (fbm2Go x y seed lac gain oct.toNat).2.2.2)) ∧
    (∀ (P : ℕ → ℕ) (o lac gain : ℚ) (cs : List ℚ), 0 < trunc o → 0 ≤ gain →
      (cs.length = 1 ∨ cs.length = 2 ∨ cs.length = 3) →
      ∃ st, fbmEvalLoop P cs lac gain (trunc o).toNat = some st ∧ 1 ≤ st.2.2.2 ∧
        fbmEval P (o :: lac :: gain :: cs) = some (r32 (st.1 / st.2.2.2))) := by
  refine ⟨?_, ?_, ?_, ?_⟩
  · intro x y lac gain seed oct h
    unfold FBM2q
    rw [if_pos h]
  · intro P o lac gain cs hne h
    have hlen : ¬ (o :: lac :: gain :: cs).length < 4 := by
      rcases cs with _ | ⟨a, t⟩
      · exact absurd rfl hne
      · simp [List.length]
    unfold fbmEval
    rw [if_neg hlen]
    simp only [List.getD_cons_zero]
    rw [if_pos h]
  · intro x y lac gain seed oct hoct hg
    have htn : 1 ≤ oct.toNat := by omega
    have htot := (fbm2Go_tot x y seed lac gain hg oct.toNat).2 htn
    refine ⟨htot, ?_⟩
    unfold FBM2q
    rw [if_neg (by omega)]
    rw [if_pos (by linarith)]
  · intro P o lac gain cs hoct hg hlen
    have htn : 1 ≤ (trunc o).toNat := by omega
    obtain ⟨st, hst, hamp, htot⟩ := fbmEvalLoop_tot P cs lac gain hg hlen (trunc o).toNat
    refine ⟨st, hst, htot htn, ?_⟩
    have hplen : ¬ (o :: lac :: gain :: cs).length < 4 := by
      rcases hlen with h | h | h <;> simp [List.length, h]
    unfold fbmEval
    rw [if_neg hplen]
    simp only [List.getD_cons_zero, List.getD_cons_succ, List.drop_succ_cons, List.drop_zero]
    rw [if_neg (by omega)]
    rw [hst]
    simp only []
    rw [if_pos (by linarith [htot htn])]

/-- Witness for C4: octaves 0 returns 0 in both forms; with octaves 1 or
2, lacunarity 1, gain 1 the total amplitude is at least 1 and the result
is the normalized quotient. -/
theorem C4_fbm_normalization_witness :
    FBM2q 0 0 0 1 1 42 = 0 ∧
    fbmEval (fun _ => 0) [0, 1, 1, 1 / 2] = some 0 ∧
    (1 ≤ (fbm2Go 0 0 42 1 1 1).2.2.2 ∧
      FBM2q 0 0 1 1 1 42
        = r32 ((fbm2Go 0 0 42 1 1 1).1 / (fbm2Go 0 0 42 1 1 1).2.2.2)) ∧
    (∃ st, fbmEvalLoop (fun _ => 0) [1 / 2] 1 1 (trunc 2).toNat = some st ∧ 1 ≤ st.2.2.2 ∧
      fbmEval (fun _ => 0) [2, 1, 1, 1 / 2] = some (r32 (st.1 / st.2.2.2))) :=
  ⟨C4_fbm_normalization.1 0 0 1 1 42 0 (by norm_num),
   C4_fbm_normalization.2.1 (fun _ => 0) 0 1 1 [1 / 2] (by simp) (by norm_num [trunc]),
   C4_fbm_normalization.2.2.1 0 0 1 1 42 1 (by norm_num) (by norm_num),
   C4_fbm_normalization.2.2.2 (fun _ => 0) 2 1 1 [1 / 2] (by norm_num [trunc]) (by norm_num)
     (by norm_num)⟩

/-- Counterexample for C4: with gain -1 and two octaves the accumulated
total amplitude is exactly 0, not positive, and FBM2 returns 0 through
its fallback branch rather than the quotient sum over total amplitude. -/
theorem C4_total_amp_counterexample :
    (fbm2Go 0 0 42 1 (-1) 2).2.2.2 = 0 ∧
    ¬ (0 : ℚ) < (fbm2Go 0 0 42 1 (-1) 2).2.2.2 ∧
    FBM2q 0 0 2 1 (-1) 42 = 0 := by
  refine ⟨?_, ?_, ?_⟩
  · with_unfolding_all decide
  · with_unfolding_all decide
  · with_unfolding_all decide

/-! ### C7: sparse projections -/

theorem r64_FRep_eq (x : ℚ) (h : FRep 53 x) : r64 x = x :=
  FRep_roundPrec_eq 53 (by norm_num) x h

theorem ceil_r64_div (a b : ℤ) (ha : 0 < a) (hb : 0 < b) (hab : a ≤ 2 ^ 50) :
    ⌈r64 ((a : ℚ) / (b : ℚ))⌉ = ⌈(a : ℚ) / (b : ℚ)⌉ := by
  set B : ℚ := (b : ℚ) with hB
  set q : ℚ := (a : ℚ) / B with hqdef
  have hBpos : 0 < B := by rw [hB]; exact_mod_cast hb
  have hq : 0 < q := by positivity
  have hqa : q ≤ (a : ℚ) := by
    rw [hqdef]
    exact div_le_self (by positivity) (by rw [hB]; exact_mod_cast (by omega : (1 : ℤ) ≤ b))
  have ha50 : (a : ℚ) ≤ 2 ^ 50 := by exact_mod_cast hab
  by_cases hint : ∃ n : ℤ, q = (n : ℚ)
  · obtain ⟨n, hn⟩ := hint
    have hn53 : |n| ≤ (2 : ℤ) ^ 53 := by
      have h0 : (0 : ℚ) < (n : ℚ) := hn ▸ hq
      have h1 : (n : ℚ) ≤ 2 ^ 50 := le_trans (hn ▸ hqa) ha50
      rw [abs_of_pos (by exact_mod_cast h0)]
      have : (n : ℚ) ≤ ((2 : ℤ) ^ 53 : ℤ) := by push_cast; linarith
      exact_mod_cast this
    rw [hn, r64_FRep_eq _ (FRep_int 53 n hn53)]
  · set n : ℤ := ⌊q⌋ with hnq
    have hfl : (n : ℚ) ≤ q := Int.floor_le q
    have hlt : q < n + 1 := Int.lt_floor_add_one q
    have hne : q ≠ (n : ℚ) := fun h => hint ⟨n, h⟩
    have hstrict : (n : ℚ) < q := lt_of_le_of_ne hfl (Ne.symm hne)
    have hlow : (n : ℚ) + 1 / B ≤ q := by
      have hbne : ((b : ℤ) : ℚ) ≠ 0 := by
        exact_mod_cast ne_of_gt hb
      have hk : ((a - n * b : ℤ) : ℚ) = B * (q - n) := by
        push_cast
        rw [hqdef, hB]
        field_simp
        try ring
      have hkpos : (0 : ℤ) < a - n * b := by
        have : (0 : ℚ) < ((a - n * b : ℤ) : ℚ) := by
          rw [hk]
          exact mul_pos hBpos (by linarith)
        exact_mod_cast this
      have hk1 : (1 : ℚ) ≤ ((a - n * b : ℤ) : ℚ) := by exact_mod_cast hkpos
      have : 1 / B ≤ q - n := by
        rw [div_le_iff hBpos]
        calc (1 : ℚ) ≤ ((a - n * b : ℤ) : ℚ) := hk1
          _ = B * (q - n) := hk
          _ = (q - n) * B := by ring
      linarith
    have hhigh : q + 1 / B ≤ (n : ℚ) + 1 := by
      have hbne : ((b : ℤ) : ℚ) ≠ 0 := by
        exact_mod_cast ne_of_gt hb
      have hk : (((n + 1) * b - a : ℤ) : ℚ) = B * ((n + 1) - q) := by
        push_cast
        rw [hqdef, hB]
        field_simp
        try ring
      have hkpos : (0 : ℤ) < (n + 1) * b - a := by
        have : (0 : ℚ) < (((n + 1) * b - a : ℤ) : ℚ) := by
          rw [hk]
          exact mul_pos hBpos (by linarith)
        exact_mod_cast this
      have hk1 : (1 : ℚ) ≤ (((n + 1) * b - a : ℤ) : ℚ) := by exact_mod_cast hkpos
      have : 1 / B ≤ (n : ℚ) + 1 - q := by
        rw [div_le_iff hBpos]
        calc (1 : ℚ) ≤ (((n + 1) * b - a : ℤ) : ℚ) := hk1
          _ = B * ((n : ℚ) + 1 - q) := by rw [hk]; try ring
          _ = ((n : ℚ) + 1 - q) * B := by ring
      linarith
    have herr : |r64 q - q| ≤ 2 ^ (ratLog2 |q| - 53) := roundPrec_err 53 q (ne_of_gt hq)
    rw [abs_of_pos hq] at herr
    set e : ℤ := ratLog2 q with he
    have h2e : (2 : ℚ) ^ e ≤ q := (ratLog2_spec q hq).1
    have hsplit : (2 : ℚ) ^ (e - 53) = 2 ^ e * 2 ^ (-53 : ℤ) := by
      rw [sub_eq_add_neg, zpow_add₀ (two_ne_zero : (2 : ℚ) ≠ 0)]
    have hneg53 : (2 : ℚ) ^ (-53 : ℤ) = (2 ^ 53 : ℚ)⁻¹ := by
      rw [zpow_neg]
      norm_num
    have hqb : q * (2 ^ 53 : ℚ)⁻¹ ≤ 1 / (8 * B) := by
      rw [hqdef, div_mul_eq_mul_div, div_le_div_iff hBpos (by positivity)]
      have h8 : (0 : ℚ) < (2 ^ 53 : ℚ) := by positivity
      nlinarith [ha50, hBpos]
    have herr2 : |r64 q - q| ≤ 1 / (8 * B) := by
      calc |r64 q - q| ≤ 2 ^ (e - 53) := herr
        _ = 2 ^ e * (2 ^ 53 : ℚ)⁻¹ := by rw [hsplit, hneg53]
        _ ≤ q * (2 ^ 53 : ℚ)⁻¹ := by
            have : (0 : ℚ) ≤ (2 ^ 53 : ℚ)⁻¹ := by positivity
            exact mul_le_mul_of_nonneg_right h2e this
        _ ≤ 1 / (8 * B) := hqb
    have hinvB : 0 < 1 / B := by positivity
    have hsmall : 1 / (8 * B) < 1 / B := by
      rw [div_lt_div_iff (by positivity) hBpos]
      linarith
    rw [abs_le] at herr2
    have hup : r64 q ≤ (n : ℚ) + 1 := by linarith
    have hdown : (n : ℚ) < r64 q := by linarith
    have hc1 : ⌈r64 q⌉ = n + 1 := by
      rw [Int.ceil_eq_iff]
      constructor
      · push_cast
        linarith
      · push_cast
        linarith
    have hc2 : ⌈q⌉ = n + 1 := by
      rw [Int.ceil_eq_iff]
      constructor
      · push_cast
        linarith
      · push_cast
        linarith
    rw [hc1, hc2]

theorem sparseRadius_eq (w gap : ℤ) (hw : 0 < w) (hg : 0 < gap) (hwb : w ≤ 2 ^ 50)
    (hgb : gap ≤ 2 ^ 50) :
    sparseRadius w gap = ⌈(w : ℚ) / (2 * (gap : ℚ))⌉ := by
  unfold sparseRadius
  have hw53 : |w| ≤ (2 : ℤ) ^ 53 := by
    rw [abs_of_pos hw]
    calc w ≤ 2 ^ 50 := hwb
      _ ≤ 2 ^ 53 := by norm_num
  have hg53 : |2 * gap| ≤ (2 : ℤ) ^ 53 := by
    rw [abs_of_pos (by omega)]
    calc 2 * gap ≤ 2 * 2 ^ 50 := by linarith
      _ ≤ 2 ^ 53 := by norm_num
  have hcast : ((2 * gap : ℤ) : ℚ) = 2 * (gap : ℚ) := by push_cast; ring
  rw [r64_FRep_eq ((w : ℤ) : ℚ) (FRep_int 53 w hw53)]
  rw [r64_FRep_eq ((2 * gap : ℤ) : ℚ) (FRep_int 53 (2 * gap) hg53)]
  calc ⌈r64 ((w : ℚ) / ((2 * gap : ℤ) : ℚ))⌉
      = ⌈(w : ℚ) / ((2 * gap : ℤ) : ℚ)⌉ := ceil_r64_div w (2 * gap) hw (by omega) hwb
    _ = ⌈(w : ℚ) / (2 * (gap : ℚ))⌉ := by rw [hcast]

/-- C7 (amended): Sparse1 and Sparse2 yield the empty sequence when the
width, height (2D only) or gap is nonpositive.  For positive parameters
(up to 2 to the 50, where the float64 radius arithmetic is exact in the
claimed direction), the emitted sequence is exactly the SSI sequence at
lattice radius the ceiling of width over twice the gap per axis, each
continuous point scaled by the gap, offset by half the width, converted
to int by TRUNCATION TOWARD ZERO (not floor, in float32 arithmetic), and
dropped when outside the target range, so every emitted pixel lies inside
the range. -/
theorem C7_sparse_projection :
    (∀ (seed : ℕ) (w gap : ℤ), w ≤ 0 ∨ gap ≤ 0 → sparse1List seed w gap = []) ∧
    (∀ (seed : ℕ) (w h gap : ℤ), w ≤ 0 ∨ h ≤ 0 ∨ gap ≤ 0 → sparse2List seed w h gap = []) ∧
    (∀ (seed : ℕ) (w gap : ℤ), 0 < w → 0 < gap → w ≤ 2 ^ 50 → gap ≤ 2 ^ 50 →
      sparse1List seed w gap
        = (ssi1List seed ⌈(w : ℚ) / (2 * (gap : ℚ))⌉).filterMap (sparseProj1 w gap) ∧
      ∀ ix ∈ sparse1List seed w gap, 0 ≤ ix ∧ ix < w) ∧
    (∀ (seed : ℕ) (w h gap : ℤ), 0 < w → 0 < h → 0 < gap →
      w ≤ 2 ^ 50 → h ≤ 2 ^ 50 → gap ≤ 2 ^ 50 →
      sparse2List seed w h gap
        = (ssi2List seed ⌈(w : ℚ) / (2 * (gap : ℚ))⌉ ⌈(h : ℚ) / (2 * (gap : ℚ))⌉).filterMap
            (sparseProj2 w h gap) ∧
      ∀ p ∈ sparse2List seed w h gap, 0 ≤ p.1 ∧ p.1 < w ∧ 0 ≤ p.2 ∧ p.2 < h) := by
  refine ⟨?_, ?_, ?_, ?_⟩
  · intro seed w gap h
    unfold sparse1List
    rw [if_pos h]
  · intro seed w h gap hc
    unfold sparse2List
    rw [if_pos hc]
  · intro seed w gap hw hg hwb hgb
    constructor
    · unfold sparse1List
      rw [if_neg (by omega), sparseRadius_eq w gap hw hg hwb hgb]
    · intro ix hmem
      unfold sparse1List at hmem
      rw [if_neg (by omega)] at hmem
      obtain ⟨x, _, hfx⟩ := List.mem_filterMap.mp hmem
      simp only [sparseProj1] at hfx
      split_ifs at hfx with hcond
      simp only [Option.some.injEq] at hfx
      subst hfx
      exact hcond
  · intro seed w h gap hw hh hg hwb hhb hgb
    constructor
    · unfold sparse2List
      rw [if_neg (by omega), sparseRadius_eq w gap hw hg hwb hgb,
        sparseRadius_eq h gap hh hg hhb hgb]
    · intro p hmem
      unfold sparse2List at hmem
      rw [if_neg (by omega)] at hmem
      obtain ⟨x, _, hfx⟩ := List.mem_filterMap.mp hmem
      simp only [sparseProj2] at hfx
      split_ifs at hfx with hcond
      simp only [Option.some.injEq] at hfx
      subst hfx
      exact hcond

/-- Witness for C7: width 0 gives the empty sequence; width 8 and gap 2
give the projected SSI run at radius 2 with every pixel inside the
range. -/
theorem C7_sparse_projection_witness :
    sparse1List 0 0 2 = [] ∧
    sparse2List 0 0 8 2 = [] ∧
    (sparse1List 0 8 2
        = (ssi1List 0 ⌈((8 : ℤ) : ℚ) / (2 * ((2 : ℤ) : ℚ))⌉).filterMap (sparseProj1 8 2) ∧
      ∀ ix ∈ sparse1List 0 8 2, 0 ≤ ix ∧ ix < 8) ∧
    (sparse2List 0 8 8 2
        = (ssi2List 0 ⌈((8 : ℤ) : ℚ) / (2 * ((2 : ℤ) : ℚ))⌉
            ⌈((8 : ℤ) : ℚ) / (2 * ((2 : ℤ) : ℚ))⌉).filterMap (sparseProj2 8 8 2) ∧
      ∀ p ∈ sparse2List 0 8 8 2, 0 ≤ p.1 ∧ p.1 < 8 ∧ 0 ≤ p.2 ∧ p.2 < 8) :=
  ⟨C7_sparse_projection.1 0 0 2 (Or.inl (by norm_num)),
   C7_sparse_projection.2.1 0 0 8 2 (Or.inl (by norm_num)),
   C7_sparse_projection.2.2.1 0 8 2 (by norm_num) (by norm_num) (by norm_num) (by norm_num),
   C7_sparse_projection.2.2.2 0 8 8 2 (by norm_num) (by norm_num) (by norm_num)
     (by norm_num) (by norm_num) (by norm_num)⟩

/-- Counterexample for C7: at seed 0 with width 8 and gap 2 the code
emits pixel 0 (truncation toward zero of a slightly negative scaled
coordinate), while the claimed floor projection never emits pixel 0
because the floor of the same value is -1, outside the range. -/
theorem C7_trunc_vs_floor_counterexample :
    (0 : ℤ) ∈ sparse1List 0 8 2 ∧ (0 : ℤ) ∉ sparse1ClaimList 0 8 2 := by
  constructor
  · with_unfolding_all decide
  · with_unfolding_all decide

/-! ### C10: the first emitted point -/

theorem rotl64_lt {x : ℕ} (n : ℕ) (hx : x < 2 ^ 64) (hn : n ≤ 64) : rotl64 x n < 2 ^ 64 := by
  unfold rotl64
  set A := 2 ^ (64 - n) with hA
  set B := 2 ^ n with hB
  have hAB : A * B = 2 ^ 64 := by
    rw [hA, hB, ← pow_add]
    congr 1
    omega
  have hApos : 0 < A := pow_pos (by norm_num) _
  have hBpos : 0 < B := pow_pos (by norm_num) _
  have hmod : x % A < A := Nat.mod_lt x hApos
  have hdiv : x / A < B := Nat.div_lt_of_lt_mul (by rw [hAB]; exact hx)
  have final : x % A * B + x / A < A * B := by
    calc x % A * B + x / A < x % A * B + B := Nat.add_lt_add_left hdiv _
      _ = (x % A + 1) * B := by ring
      _ ≤ A * B := Nat.mul_le_mul_right B (by omega)
  rw [hAB] at final
  exact final

theorem xxhash64_lt (v seed : ℕ) : xxhash64 v seed < 2 ^ 64 := by
  simp only [xxhash64, U64]
  apply Nat.xor_lt_two_pow
  · exact Nat.mod_lt _ (by norm_num)
  · exact lt_of_le_of_lt (Nat.div_le_self _ _) (Nat.mod_lt _ (by norm_num))

theorem float32OfHash_bounds (h : ℕ) (hlt : h < 2 ^ 64) :
    0 ≤ float32OfHash h ∧ float32OfHash h ≤ 1 := by
  unfold float32OfHash
  have hm : h / 2 ^ 32 < 2 ^ 32 :=
    Nat.div_lt_of_lt_mul (by calc h < 2 ^ 64 := hlt
                               _ = 2 ^ 32 * 2 ^ 32 := by norm_num)
  have hmq : ((h / 2 ^ 32 : ℕ) : ℚ) ≤ 2 ^ 32 := by exact_mod_cast le_of_lt hm
  have h0 : (0 : ℚ) ≤ ((h / 2 ^ 32 : ℕ) : ℚ) := by positivity
  have hFRep32 : FRep 24 ((2 : ℚ) ^ 32) := ⟨1, -32, by norm_num, by norm_num⟩
  have hinner_le : r32 ((h / 2 ^ 32 : ℕ) : ℚ) ≤ 2 ^ 32 := by
    calc r32 ((h / 2 ^ 32 : ℕ) : ℚ) ≤ r32 (2 ^ 32) := r32_mono hmq
      _ = 2 ^ 32 := r32_FRep_eq _ hFRep32
  have hinner_0 : 0 ≤ r32 ((h / 2 ^ 32 : ℕ) : ℚ) := roundPrec_nonneg 24 _ h0 (by norm_num)
  constructor
  · apply roundPrec_nonneg 24 _ _ (by norm_num)
    positivity
  · have hle : r32 ((h / 2 ^ 32 : ℕ) : ℚ) / 2 ^ 32 ≤ 1 := by
      rw [div_le_one (by positivity)]
      exact hinner_le
    calc r32 (r32 ((h / 2 ^ 32 : ℕ) : ℚ) / 2 ^ 32) ≤ r32 1 := r32_mono hle
      _ = 1 := r32_one

theorem jitter_delta_bound {j : ℚ} (h0 : 0 ≤ j) (h1 : j ≤ 1) : |r32 (j - 1 / 2)| ≤ 1 / 2 := by
  have hu : r32 (j - 1 / 2) ≤ 1 / 2 := by
    calc r32 (j - 1 / 2) ≤ r32 (1 / 2) := r32_mono (by linarith)
      _ = 1 / 2 := by with_unfolding_all decide
  have hl : -(1 / 2 : ℚ) ≤ r32 (j - 1 / 2) := by
    calc -(1 / 2 : ℚ) = r32 (-(1 / 2)) := by with_unfolding_all decide
      _ ≤ r32 (j - 1 / 2) := r32_mono (by linarith)
  rw [abs_le]
  exact ⟨hl, hu⟩

theorem ssi1Jitter_origin (seed t : ℕ) : |ssi1Jitter seed 0 t| ≤ 1 / 2 := by
  simp only [ssi1Jitter]
  obtain ⟨hj0, hj1⟩ := float32OfHash_bounds _ (xxhash64_lt _ _)
  have hz : r32 ((((0 : ℤ) : ℤ) : ℚ)) = 0 := by with_unfolding_all decide
  rw [hz, zero_add, r32_FRep_eq _ (r32_FRep _)]
  exact jitter_delta_bound hj0 hj1

theorem ssi2Jitter_origin (seed t : ℕ) :
    |(ssi2Jitter seed 0 0 t).1| ≤ 1 / 2 ∧ |(ssi2Jitter seed 0 0 t).2| ≤ 1 / 2 := by
  simp only [ssi2Jitter]
  obtain ⟨hx0, hx1⟩ := float32OfHash_bounds _ (xxhash64_lt (ssi2CellHash seed 0 0 t) (seed % 2 ^ 32))
  obtain ⟨hy0, hy1⟩ := float32OfHash_bounds _ (xxhash64_lt (ssi2CellHash seed 0 0 t) (Nat.xor (seed % 2 ^ 32) 1))
  have hz : r32 ((((0 : ℤ) : ℤ) : ℚ)) = 0 := by with_unfolding_all decide
  constructor
  · rw [hz, zero_add, r32_FRep_eq _ (r32_FRep _)]
    exact jitter_delta_bound hx0 hx1
  · rw [hz, zero_add, r32_FRep_eq _ (r32_FRep _)]
    exact jitter_delta_bound hy0 hy1

theorem grid1IsValid_empty (r1 : ℤ) (x : ℚ) (hx : FRep 24 x) (hb : |x| ≤ 1 / 2)
    (hr : 1 ≤ r1) (hrb : r1 ≤ 2 ^ 60) : grid1IsValid (newGrid1 r1) x = true := by
  have hwrap : int64wrap (r1 * 4 + 10) = r1 * 4 + 10 := by
    unfold int64wrap
    omega
  have hsub : subCell x = trunc (2 * x) := subCell_eq x hx
  have habs : |2 * x| ≤ 1 := by
    rw [abs_mul]
    rw [show |(2 : ℚ)| = 2 from by norm_num]
    linarith
  rw [abs_le] at habs
  have h1 : trunc (2 * x) ≤ 1 := trunc_le_of_le (by exact_mod_cast habs.2)
  have h2 : -1 ≤ trunc (2 * x) := le_trunc_of_le (by exact_mod_cast habs.1)
  simp only [grid1IsValid, newGrid1]
  simp only [hwrap]
  rw [if_neg (by rw [hsub]; omega)]
  simp [List.contains]

theorem grid2IsValid_empty (r1 r2 : ℤ) (x y : ℚ) (hx : FRep 24 x) (hy : FRep 24 y)
    (hbx : |x| ≤ 1 / 2) (hby : |y| ≤ 1 / 2) (hr1 : 1 ≤ r1) (hr2 : 1 ≤ r2)
    (hrb1 : r1 ≤ 2 ^ 60) (hrb2 : r2 ≤ 2 ^ 60) :
    grid2IsValid (newGrid2 r1 r2) x y = true := by
  have hwrap1 : int64wrap (r1 * 4 + 10) = r1 * 4 + 10 := by
    unfold int64wrap
    omega
  have hwrap2 : int64wrap (r2 * 4 + 10) = r2 * 4 + 10 := by
    unfold int64wrap
    omega
  have hsx : subCell x = trunc (2 * x) := subCell_eq x hx
  have hsy : subCell y = trunc (2 * y) := subCell_eq y hy
  have habsx : |2 * x| ≤ 1 := by
    rw [abs_mul, show |(2 : ℚ)| = 2 from by norm_num]
    linarith
  have habsy : |2 * y| ≤ 1 := by
    rw [abs_mul, show |(2 : ℚ)| = 2 from by norm_num]
    linarith
  rw [abs_le] at habsx habsy
  have hx1 : trunc (2 * x) ≤ 1 := trunc_le_of_le (by exact_mod_cast habsx.2)
  have hx2 : -1 ≤ trunc (2 * x) := le_trunc_of_le (by exact_mod_cast habsx.1)
  have hy1 : trunc (2 * y) ≤ 1 := trunc_le_of_le (by exact_mod_cast habsy.2)
  have hy2 : -1 ≤ trunc (2 * y) := le_trunc_of_le (by exact_mod_cast habsy.1)
  simp only [grid2IsValid, newGrid2]
  simp only [hwrap1, hwrap2]
  rw [if_neg (by rw [hsx, hsy]; omega)]
  simp [List.contains]

theorem grid1IsValid_of_nonpos (g : Grid1) (x : ℚ) (hs : g.size ≤ 0) :
    grid1IsValid g x = false := by
  simp only [grid1IsValid]
  rw [if_pos (by omega)]

theorem tryCell1_none_of_nonpos (seed : ℕ) (ix : ℤ) (g : Grid1) (hs : g.size ≤ 0) :
    ∀ ts : List ℕ, tryCell1 seed ix g ts = (g, none) := by
  intro ts
  induction ts with
  | nil => rfl
  | cons t ts ih =>
      simp [tryCell1, grid1IsValid_of_nonpos g _ hs, ih]

theorem ssi1Run_empty_of_nonpos (seed : ℕ) (cells : List ℤ) (g : Grid1) (hs : g.size ≤ 0) :
    ssi1Run seed cells g = [] := by
  induction cells with
  | nil => rfl
  | cons ix rest ih =>
      rw [ssi1Run_cons_eq, tryCell1_none_of_nonpos seed ix g hs]
      exact ih

theorem grid2IsValid_of_nonpos (g : Grid2) (x y : ℚ) (hs : g.w ≤ 0) :
    grid2IsValid g x y = false := by
  simp only [grid2IsValid]
  rw [if_pos (by omega)]

theorem tryCell2_none_of_nonpos (seed : ℕ) (ix iy : ℤ) (g : Grid2) (hs : g.w ≤ 0) :
    ∀ ts : List ℕ, tryCell2 seed ix iy g ts = (g, none) := by
  intro ts
  induction ts with
  | nil => rfl
  | cons t ts ih =>
      simp [tryCell2, grid2IsValid_of_nonpos g _ _ hs, ih]

theorem ssi2Run_empty_of_nonpos (seed : ℕ) (cells : List (ℤ × ℤ)) (g : Grid2)
    (hs : g.w ≤ 0) : ssi2Run seed cells g = [] := by
  induction cells with
  | nil => rfl
  | cons c rest ih =>
      rw [ssi2Run_cons_eq, tryCell2_none_of_nonpos seed c.1 c.2 g hs]
      exact ih

theorem ssi1List_first (seed : ℕ) (r1 : ℤ) (hr : 1 ≤ r1) (hrb : r1 ≤ 2 ^ 60) :
    ∃ tl, ssi1List seed r1 = ssi1Jitter seed 0 0 :: tl := by
  have hval : grid1IsValid (newGrid1 r1) (ssi1Jitter seed 0 0) = true :=
    grid1IsValid_empty r1 _ (ssi1Jitter_FRep seed 0 0) (ssi1Jitter_origin seed 0) hr hrb
  have heq : ssi1List seed r1 = ssi1Jitter seed 0 0 ::
      ssi1Run seed ((intRange 1 r1).foldr (fun r acc => r :: -r :: acc) [])
        (grid1Set (newGrid1 r1) (ssi1Jitter seed 0 0)) := by
    unfold ssi1List
    rw [if_neg (by omega)]
    simp only [ssi1Cells]
    rw [ssi1Run_cons_eq]
    simp [tryCell1, hval]
  exact ⟨_, heq⟩

theorem ssi2List_first (seed : ℕ) (r1 r2 : ℤ) (hr1 : 1 ≤ r1) (hr2 : 1 ≤ r2)
    (hrb1 : r1 ≤ 2 ^ 60) (hrb2 : r2 ≤ 2 ^ 60) :
    ∃ tl, ssi2List seed r1 r2 = ssi2Jitter seed 0 0 0 :: tl := by
  obtain ⟨hbx, hby⟩ := ssi2Jitter_origin seed 0
  obtain ⟨hfx, hfy⟩ := ssi2Jitter_FRep seed 0 0 0
  have hval : grid2IsValid (newGrid2 r1 r2) (ssi2Jitter seed 0 0 0).1
      (ssi2Jitter seed 0 0 0).2 = true :=
    grid2IsValid_empty r1 r2 _ _ hfx hfy hbx hby hr1 hr2 hrb1 hrb2
  have heq : ssi2List seed r1 r2 = ssi2Jitter seed 0 0 0 ::
      ssi2Run seed (((intRange 1 (max r1 r2)).map (ssi2Ring r1 r2)).foldr (· ++ ·) [])
        (grid2Set (newGrid2 r1 r2) (ssi2Jitter seed 0 0 0).1 (ssi2Jitter seed 0 0 0).2) := by
    unfold ssi2List
    rw [if_neg (by omega)]
    simp only [ssi2Cells]
    rw [ssi2Run_cons_eq]
    simp [tryCell2, hval]
  exact ⟨_, heq⟩

/-- C10 (amended): for every seed, SSI1 and SSI2 with radii between 1 and
2 to the 60 emit at least one point: the very first candidate (jitter
attempt 0 at the origin cell) is accepted against the empty acceleration
grid, and it lies within 0.5 of the origin in each coordinate.  Two parts
of the original claim fail.  The grid size r*4+10 is computed in wrapping
64-bit int arithmetic, so for radii near 2 to the 61 it wraps negative,
every candidate fails the range check, and no point at all is emitted.
And the Euclidean reading of within 0.5 fails for SSI2: the first point
can be farther than 0.5 from the origin (see the counterexample), though
each of its coordinates stays within 0.5. -/
theorem C10_first_point :
    (∀ (seed : ℕ) (r1 : ℤ), 1 ≤ r1 → r1 ≤ 2 ^ 60 →
      ssi1List seed r1 ≠ [] ∧
      (ssi1List seed r1).headD 0 = ssi1Jitter seed 0 0 ∧
      |(ssi1List seed r1).headD 0| ≤ 1 / 2) ∧
    (∀ (seed : ℕ) (r1 r2 : ℤ), 1 ≤ r1 → 1 ≤ r2 → r1 ≤ 2 ^ 60 → r2 ≤ 2 ^ 60 →
      ssi2List seed r1 r2 ≠ [] ∧
      (ssi2List seed r1 r2).headD (0, 0) = ssi2Jitter seed 0 0 0 ∧
      |((ssi2List seed r1 r2).headD (0, 0)).1| ≤ 1 / 2 ∧
      |((ssi2List seed r1 r2).headD (0, 0)).2| ≤ 1 / 2) ∧
    (∀ seed : ℕ, ssi1List seed (2 ^ 61) = [] ∧ ssi2List seed (2 ^ 61) (2 ^ 61) = []) := by
  refine ⟨?_, ?_, ?_⟩
  · intro seed r1 hr hrb
    obtain ⟨tl, htl⟩ := ssi1List_first seed r1 hr hrb
    rw [htl]
    exact ⟨by simp, rfl, ssi1Jitter_origin seed 0⟩
  · intro seed r1 r2 hr1 hr2 hrb1 hrb2
    obtain ⟨tl, htl⟩ := ssi2List_first seed r1 r2 hr1 hr2 hrb1 hrb2
    rw [htl]
    obtain ⟨hbx, hby⟩ := ssi2Jitter_origin seed 0
    exact ⟨by simp, rfl, hbx, hby⟩
  · intro seed
    constructor
    · unfold ssi1List
      rw [if_neg (by norm_num)]
      apply ssi1Run_empty_of_nonpos
      simp only [newGrid1]
      unfold int64wrap
      omega
    · unfold ssi2List
      rw [if_neg (by norm_num)]
      apply ssi2Run_empty_of_nonpos
      simp only [newGrid2]
      unfold int64wrap
      omega

/-- Witness for C10: at seed 42 with every radius 1 (within the overflow
bound), both sequences are nonempty, start with the origin-cell attempt-0
candidate within 0.5 of the origin per coordinate, and at the wrapping
radius 2 to the 61 both sequences are empty. -/
theorem C10_first_point_witness :
    (1 : ℤ) ≤ 1 ∧ (1 : ℤ) ≤ 2 ^ 60 ∧
    (ssi1List 42 1 ≠ [] ∧
      (ssi1List 42 1).headD 0 = ssi1Jitter 42 0 0 ∧
      |(ssi1List 42 1).headD 0| ≤ 1 / 2) ∧
    (ssi2List 42 1 1 ≠ [] ∧
      (ssi2List 42 1 1).headD (0, 0) = ssi2Jitter 42 0 0 0 ∧
      |((ssi2List 42 1 1).headD (0, 0)).1| ≤ 1 / 2 ∧
      |((ssi2List 42 1 1).headD (0, 0)).2| ≤ 1 / 2) ∧
    ssi1List 42 (2 ^ 61) = [] ∧ ssi2List 42 (2 ^ 61) (2 ^ 61) = [] :=
  ⟨le_refl 1, by norm_num,
   C10_first_point.1 42 1 (by norm_num) (by norm_num),
   C10_first_point.2.1 42 1 1 (by norm_num) (by norm_num) (by norm_num) (by norm_num),
   (C10_first_point.2.2 42).1,
   (C10_first_point.2.2 42).2⟩

/-- Counterexample for C10: at seed 2 the first point emitted by SSI2 has
squared Euclidean distance from the origin above one quarter, so it is
farther than 0.5 from the origin. -/
theorem C10_euclidean_counterexample :
    ssi2List 2 1 1 ≠ [] ∧
    (1 / 4 : ℚ) < ((ssi2List 2 1 1).headD (0, 0)).1 ^ 2
      + ((ssi2List 2 1 1).headD (0, 0)).2 ^ 2 := by
  constructor
  · with_unfolding_all decide
  · with_unfolding_all decide
